import Mathlib

/-!
Verification of the monarch coordinate algebra, `ValueMesh` builders,
proc-mesh event plumbing and the RDMA send-queue ring discipline, as a
shallow embedding of the Rust sources (`ndslice/src/view.rs`,
`hyperactor_mesh/src/v1/value_mesh.rs`, `hyperactor_mesh/src/proc_mesh.rs`,
`monarch_rdma/src/test_utils.rs`).
-/

namespace Monarch

deriving instance DecidableEq for Except

/-- Errors of `Extent`/`Point` operations (`PointError` in view.rs). -/
inductive PointError where
  | dimMismatch (expected actual : Nat)
  | outOfRangeRank (total rank : Nat)
  | outOfRangeIndex (size index : Nat)
deriving DecidableEq

/-- An `Extent` (view.rs): parallel lists of dimension labels and sizes.
Labels are modelled as character lists. -/
structure Extent where
  labels : List (List Char)
  sizes : List Nat
deriving DecidableEq

/-- `Extent::num_ranks`: the product of all dimension sizes. -/
def Extent.numRanks (e : Extent) : Nat := e.sizes.prod

/-- The accumulator loop of `Extent::rank_of_coords` (view.rs lines
163-171): the reversed (coord, size) pairs are folded with
`result += c * stride; stride *= size`, failing on the first
out-of-range coordinate (seen from the right). -/
def rocGo : List (Nat × Nat) → Nat → Nat → Except PointError Nat
  | [], _, result => .ok result
  | (c, size) :: rest, stride, result =>
    if c ≥ size then .error (.outOfRangeIndex size c)
    else rocGo rest (stride * size) (result + c * stride)

/-- `Extent::rank_of_coords` (view.rs lines 155-173). -/
def Extent.rankOfCoords (e : Extent) (coords : List Nat) : Except PointError Nat :=
  if coords.length ≠ e.sizes.length then
    .error (.dimMismatch e.sizes.length coords.length)
  else rocGo (coords.reverse.zip e.sizes.reverse) 1 0

/-- A `Point` (view.rs): a linearized rank together with its extent. -/
structure Point where
  rank : Nat
  extent : Extent
deriving DecidableEq

/-- `Extent::point`: wraps `rank_of_coords` (view.rs lines 220-225). -/
def Extent.point (e : Extent) (coords : List Nat) : Except PointError Point :=
  (e.rankOfCoords coords).map (fun r => ⟨r, e⟩)

/-- `Extent::point_of_rank` (view.rs lines 250-259). -/
def Extent.pointOfRank (e : Extent) (rank : Nat) : Except PointError Point :=
  if rank ≥ e.numRanks then .error (.outOfRangeRank e.numRanks rank)
  else .ok ⟨rank, e⟩

/-- The `CoordIter` loop (view.rs lines 547-556): starting from
`stride = Π sizes`, each axis divides the stride by its size, yields
`rank / stride` and keeps `rank % stride`. -/
def coordIterGo : List Nat → Nat → Nat → List Nat
  | [], _, _ => []
  | s :: rest, rank, stride =>
    let stride2 := stride / s
    rank / stride2 :: coordIterGo rest (rank % stride2) stride2

/-- `Point::coords` via `Point::coords_iter` (view.rs lines 634-641,
680-682). -/
def Point.coords (p : Point) : List Nat :=
  coordIterGo p.extent.sizes p.rank p.extent.sizes.prod

/-- `Point::coord(i)` is `coords_iter().nth(i).expect("coord(i): axis out
of bounds")` (view.rs lines 660-664); the panic is modelled as `none`. -/
def Point.coordOpt (p : Point) (i : Nat) : Option Nat := p.coords[i]?

/-- Modelled from the spec: `CartesianIterator` (in `crate::slice`, not
part of the excerpt) enumerates the coordinate tuples of the given sizes
in row-major order. -/
def cartesian : List Nat → List (List Nat)
  | [] => [[]]
  | s :: rest => (List.range s).flatMap (fun c => (cartesian rest).map (c :: ·))

/-- The `ExtentPointsIterator::next` loop (view.rs lines 419-426):
each cartesian coordinate tuple is converted through `rank_of_coords`;
iteration ends early if the conversion fails (`.ok()?`). -/
def pointsGo (e : Extent) : List (List Nat) → List Point
  | [] => []
  | c :: cs =>
    match e.rankOfCoords c with
    | .ok r => ⟨r, e⟩ :: pointsGo e cs
    | .error _ => []

/-- `Extent::points` (view.rs lines 307-312). -/
def Extent.points (e : Extent) : List Point := pointsGo e (cartesian e.sizes)

/-- Row-major rank of a coordinate vector, in the standard head-first
form used to reason about `rank_of_coords`. -/
def rmRank : List Nat → List Nat → Nat
  | s :: ss, c :: cs => c * ss.prod + rmRank ss cs
  | _, _ => 0

/-- The value accumulated by `rocGo` over a reversed pair list. -/
def rocWeight : List (Nat × Nat) → Nat
  | [] => 0
  | (c, s) :: rest => c + s * rocWeight rest

theorem rocGo_ok (L : List (Nat × Nat)) (stride result : Nat)
    (h : ∀ p ∈ L, p.1 < p.2) :
    rocGo L stride result = .ok (result + stride * rocWeight L) := by
  induction L generalizing stride result with
  | nil => simp [rocGo, rocWeight]
  | cons p rest ih =>
    obtain ⟨c, s⟩ := p
    have hc : c < s := h (c, s) (List.mem_cons_self _ _)
    simp only [rocGo, rocWeight, if_neg (not_le.mpr hc)]
    rw [ih _ _ (fun q hq => h q (List.mem_cons_of_mem _ hq))]
    congr 1
    ring

theorem rocWeight_append (L M : List (Nat × Nat)) :
    rocWeight (L ++ M) = rocWeight L + (L.map Prod.snd).prod * rocWeight M := by
  induction L with
  | nil => simp [rocWeight]
  | cons p rest ih =>
    obtain ⟨c, s⟩ := p
    simp only [List.cons_append, rocWeight, List.append_eq, ih, List.map_cons, List.prod_cons]
    ring

theorem rocWeight_reverse_zip (cs ss : List Nat) (hlen : cs.length = ss.length) :
    rocWeight (cs.reverse.zip ss.reverse) = rmRank ss cs := by
  induction cs generalizing ss with
  | nil =>
    cases ss with
    | nil => simp [rocWeight, rmRank]
    | cons s ss => simp at hlen
  | cons c cs ih =>
    cases ss with
    | nil => simp at hlen
    | cons s ss =>
      have hlen2 : cs.length = ss.length := by simpa using hlen
      simp only [List.reverse_cons]
      rw [List.zip_append (by simp [hlen2])]
      rw [rocWeight_append]
      rw [List.map_snd_zip _ _ (by simp [hlen2])]
      rw [ih ss hlen2]
      simp [rocWeight, rmRank, List.prod_reverse]
      ring

theorem forall₂_zip_lt {cs ss : List Nat} (h : List.Forall₂ (· < ·) cs ss) :
    ∀ p ∈ cs.zip ss, p.1 < p.2 := by
  intro p hp
  obtain ⟨-, hz⟩ := List.forall₂_iff_zip.mp h
  obtain ⟨a, b⟩ := p
  exact hz hp

theorem rankOfCoords_ok (e : Extent) (cs : List Nat)
    (h : List.Forall₂ (· < ·) cs e.sizes) :
    e.rankOfCoords cs = .ok (rmRank e.sizes cs) := by
  have hlen : cs.length = e.sizes.length := h.length_eq
  unfold Extent.rankOfCoords
  rw [if_neg (by simp [hlen])]
  have hrev : List.Forall₂ (· < ·) cs.reverse e.sizes.reverse :=
    List.forall₂_reverse_iff.mpr h
  rw [rocGo_ok _ _ _ (forall₂_zip_lt hrev)]
  rw [rocWeight_reverse_zip cs e.sizes hlen]
  simp

theorem rmRank_lt {ss cs : List Nat} (h : List.Forall₂ (· < ·) cs ss) :
    rmRank ss cs < ss.prod := by
  induction h with
  | nil => simp [rmRank]
  | @cons c s cs ss hcs _ ih =>
    simp only [rmRank, List.prod_cons]
    calc c * ss.prod + rmRank ss cs < c * ss.prod + ss.prod := by omega
      _ = (c + 1) * ss.prod := by ring
      _ ≤ s * ss.prod := Nat.mul_le_mul_right _ hcs

theorem mem_cartesian {ss : List Nat} {c : List Nat} :
    c ∈ cartesian ss ↔ List.Forall₂ (· < ·) c ss := by
  induction ss generalizing c with
  | nil =>
    simp only [cartesian, List.mem_singleton]
    constructor
    · rintro rfl; exact List.Forall₂.nil
    · intro h; cases h; rfl
  | cons s ss ih =>
    simp only [cartesian, List.mem_flatMap, List.mem_map, List.mem_range]
    constructor
    · rintro ⟨a, ha, cs, hcs, rfl⟩
      exact List.Forall₂.cons ha (ih.mp hcs)
    · intro h
      cases h with
      | cons hlt htl => exact ⟨_, hlt, _, ih.mpr htl, rfl⟩

/-- Round-trip of the coordinate iterator against the row-major rank:
for any in-range rank, `CoordIter` reconstructs coordinates that are in
bounds and linearize back to the same rank. -/
theorem coordIterGo_roundtrip (ss : List Nat) (r : Nat) (hr : r < ss.prod) :
    List.Forall₂ (· < ·) (coordIterGo ss r ss.prod) ss ∧
      rmRank ss (coordIterGo ss r ss.prod) = r := by
  induction ss generalizing r with
  | nil =>
    simp only [List.prod_nil, Nat.lt_one_iff] at hr
    subst hr
    exact ⟨List.Forall₂.nil, rfl⟩
  | cons s ss ih =>
    have hP : 0 < ss.prod := by
      rcases Nat.eq_zero_or_pos ss.prod with h0 | h
      · rw [List.prod_cons, h0, Nat.mul_zero] at hr; omega
      · exact h
    have hs : 0 < s := by
      rcases Nat.eq_zero_or_pos s with h0 | h
      · rw [List.prod_cons, h0, Nat.zero_mul] at hr; omega
      · exact h
    have hstride : (s :: ss).prod / s = ss.prod := by
      rw [List.prod_cons, Nat.mul_div_cancel_left _ hs]
    have hq : r / ss.prod < s := by
      rw [Nat.div_lt_iff_lt_mul hP]
      rw [List.prod_cons] at hr
      omega
    have hr2 : r % ss.prod < ss.prod := Nat.mod_lt _ hP
    obtain ⟨hf, hrm⟩ := ih (r % ss.prod) hr2
    refine ⟨?_, ?_⟩
    · simp only [coordIterGo, hstride]
      exact List.Forall₂.cons hq hf
    · simp only [coordIterGo, hstride, rmRank, hrm]
      rw [Nat.mul_comm (r / ss.prod) ss.prod]
      exact Nat.div_add_mod r ss.prod

theorem pointsGo_eq (e : Extent) (cs : List (List Nat))
    (h : ∀ c ∈ cs, List.Forall₂ (· < ·) c e.sizes) :
    pointsGo e cs = cs.map (fun c => ⟨rmRank e.sizes c, e⟩) := by
  induction cs with
  | nil => rfl
  | cons c cs ih =>
    have hc := h c (List.mem_cons_self _ _)
    simp only [pointsGo, rankOfCoords_ok e c hc, List.map_cons]
    rw [ih (fun d hd => h d (List.mem_cons_of_mem _ hd))]

theorem mem_points {e : Extent} {p : Point} (hp : p ∈ e.points) :
    p.extent = e ∧ p.rank < e.numRanks := by
  unfold Extent.points at hp
  rw [pointsGo_eq e _ (fun c hc => mem_cartesian.mp hc)] at hp
  obtain ⟨c, hc, rfl⟩ := List.mem_map.mp hp
  exact ⟨rfl, rmRank_lt (mem_cartesian.mp hc)⟩

/-- C2. For every point `p` yielded by `extent.points()`, re-linearizing
its coordinate vector succeeds and reproduces its rank:
`extent.point(p.coords()).rank() == p.rank()`. -/
theorem points_coords_rank_roundtrip (e : Extent) (p : Point) (hp : p ∈ e.points) :
    ∃ q : Point, e.point p.coords = .ok q ∧ q.rank = p.rank := by
  obtain ⟨hext, hrank⟩ := mem_points hp
  have hcoords : p.coords = coordIterGo e.sizes p.rank e.sizes.prod := by
    unfold Point.coords
    rw [hext]
  obtain ⟨hf, hrm⟩ := coordIterGo_roundtrip e.sizes p.rank hrank
  refine ⟨⟨p.rank, e⟩, ?_, rfl⟩
  unfold Extent.point
  rw [hcoords, rankOfCoords_ok e _ hf, hrm]
  rfl

/-- Witness for C2 at the extent {x: 2, y: 3} and the point of rank 4. -/
theorem points_coords_rank_roundtrip_witness :
    (⟨4, ⟨[['x'], ['y']], [2, 3]⟩⟩ : Point) ∈
        (⟨[['x'], ['y']], [2, 3]⟩ : Extent).points ∧
      ∃ q : Point,
        (⟨[['x'], ['y']], [2, 3]⟩ : Extent).point
            (Point.coords ⟨4, ⟨[['x'], ['y']], [2, 3]⟩⟩) = .ok q ∧
          q.rank = 4 :=
  ⟨by decide,
    points_coords_rank_roundtrip ⟨[['x'], ['y']], [2, 3]⟩
      ⟨4, ⟨[['x'], ['y']], [2, 3]⟩⟩ (by decide)⟩

theorem coordIterGo_length (ss : List Nat) (r st : Nat) :
    (coordIterGo ss r st).length = ss.length := by
  induction ss generalizing r st with
  | nil => rfl
  | cons s ss ih => simp [coordIterGo, ih]

theorem coordIterGo_get (ss : List Nat) (r : Nat) (hr : r < ss.prod)
    (i : Nat) (hi : i < ss.length) :
    (coordIterGo ss r ss.prod)[i]? =
      some ((r / (ss.drop (i + 1)).prod) % ss.getD i 0) := by
  induction ss generalizing r i with
  | nil => simp at hi
  | cons s ss ih =>
    have hP : 0 < ss.prod := by
      rcases Nat.eq_zero_or_pos ss.prod with h0 | h
      · rw [List.prod_cons, h0, Nat.mul_zero] at hr; omega
      · exact h
    have hs : 0 < s := by
      rcases Nat.eq_zero_or_pos s with h0 | h
      · rw [List.prod_cons, h0, Nat.zero_mul] at hr; omega
      · exact h
    have hstride : (s :: ss).prod / s = ss.prod := by
      rw [List.prod_cons, Nat.mul_div_cancel_left _ hs]
    cases i with
    | zero =>
      have hq : r / ss.prod < s := by
        rw [Nat.div_lt_iff_lt_mul hP]
        rw [List.prod_cons] at hr
        omega
      simp only [coordIterGo, hstride, List.getElem?_cons_zero, List.drop_succ_cons,
        List.drop_zero, List.getD_cons_zero]
      rw [Nat.mod_eq_of_lt hq]
    | succ i =>
      have hr2 : r % ss.prod < ss.prod := Nat.mod_lt _ hP
      have hi2 : i < ss.length := by simpa using hi
      simp only [coordIterGo, hstride, List.getElem?_cons_succ, List.drop_succ_cons,
        List.getD_cons_succ]
      rw [ih (r % ss.prod) hr2 i hi2]
      congr 1
      -- (r % ss.prod) / Q % ss[i] = (r / Q) % ss[i] where Q = prod of the
      -- sizes after axis i and ss.prod = Q * (prod of the first i+1 sizes).
      have hsplit : ss.prod = (ss.drop (i + 1)).prod * (ss.take (i + 1)).prod := by
        conv_lhs => rw [← List.take_append_drop (i + 1) ss]
        rw [List.prod_append]
        ring
      have hlen : i < (ss.take (i + 1)).length := by
        simp only [List.length_take]
        omega
      have htake : (ss.take (i + 1)).get ⟨i, hlen⟩ = ss.get ⟨i, hi2⟩ := by
        simp [List.get_eq_getElem, List.getElem_take]
      have hgetD : ss.getD i 0 = ss.get ⟨i, hi2⟩ := by
        simp [List.getD_eq_getElem?_getD, List.getElem?_eq_getElem hi2]
      have hmem : ss.getD i 0 ∈ ss.take (i + 1) := by
        rw [hgetD, ← htake]
        exact List.get_mem _ _ _
      have hdvd : ss.getD i 0 ∣ (ss.take (i + 1)).prod := List.dvd_prod hmem
      rw [hsplit, Nat.mod_mul_right_div_self, Nat.mod_mod_of_dvd _ hdvd]

/-- C10. `Point::coord(i)` is total only below the dimensionality: for a
point of a `d`-axis extent (with its rank in range), `coord(i)` returns
the `i`-th row-major coordinate `(rank / Π_{j>i} size(j)) % size(i)` for
`i < d`, and panics (modelled as `none`) for `i ≥ d`. -/
theorem coord_total_below_dim (p : Point) (hp : p.rank < p.extent.numRanks) (i : Nat) :
    (i < p.extent.sizes.length →
      p.coordOpt i =
        some ((p.rank / (p.extent.sizes.drop (i + 1)).prod) % p.extent.sizes.getD i 0)) ∧
    (p.extent.sizes.length ≤ i → p.coordOpt i = none) := by
  constructor
  · intro hi
    unfold Point.coordOpt Point.coords
    exact coordIterGo_get p.extent.sizes p.rank hp i hi
  · intro hi
    unfold Point.coordOpt Point.coords
    apply List.getElem?_eq_none
    rw [coordIterGo_length]
    exact hi

/-- Witness for C10 at the extent {x: 2, y: 3}, rank 4 (coords [1, 1]):
`coord 1` yields 1 and `coord 2` panics. -/
theorem coord_total_below_dim_witness :
    (⟨4, ⟨[['x'], ['y']], [2, 3]⟩⟩ : Point).rank <
        (⟨4, ⟨[['x'], ['y']], [2, 3]⟩⟩ : Point).extent.numRanks ∧
      ((1 < 2 → (⟨4, ⟨[['x'], ['y']], [2, 3]⟩⟩ : Point).coordOpt 1 = some ((4 / 1) % 3)) ∧
        (2 ≤ 1 → (⟨4, ⟨[['x'], ['y']], [2, 3]⟩⟩ : Point).coordOpt 1 = none)) ∧
      ((2 < 2 → (⟨4, ⟨[['x'], ['y']], [2, 3]⟩⟩ : Point).coordOpt 2 = some ((4 / 1) % 0)) ∧
        (2 ≤ 2 → (⟨4, ⟨[['x'], ['y']], [2, 3]⟩⟩ : Point).coordOpt 2 = none)) :=
  ⟨by decide,
    coord_total_below_dim ⟨4, ⟨[['x'], ['y']], [2, 3]⟩⟩ (by decide) 1,
    coord_total_below_dim ⟨4, ⟨[['x'], ['y']], [2, 3]⟩⟩ (by decide) 2⟩

/-! ## Regions and slices -/

/-- A `Slice` (in `crate::slice`, not part of the excerpt). Modelled from
the spec §3: an offset plus parallel sizes and strides; every enumerated
rank is `offset + Σ cᵢ·strideᵢ`. -/
structure Slice where
  offset : Nat
  sizes : List Nat
  strides : List Nat
deriving DecidableEq

/-- Dot product of a coordinate vector with the strides. -/
def dot : List Nat → List Nat → Nat
  | c :: cs, s :: ss => c * s + dot cs ss
  | _, _ => 0

/-- Modelled from the spec: `Slice::iter` enumerates
`offset + Σ cᵢ·strideᵢ` over the cartesian coordinates of `sizes` in
row-major order. -/
def Slice.ranks (s : Slice) : List Nat :=
  (cartesian s.sizes).map (fun c => s.offset + dot c s.strides)

/-- Modelled from the spec: `Slice::len` is the number of enumerated
ranks, `Π sizes`. -/
def Slice.len (s : Slice) : Nat := s.sizes.prod

/-- A `Region` (view.rs): dimension labels plus a `Slice`. -/
structure Region where
  labels : List (List Char)
  slice : Slice
deriving DecidableEq

/-- `Region::num_ranks` = `slice.len()` (view.rs lines 930-932). -/
def Region.numRanks (r : Region) : Nat := r.slice.len

/-! ## ValueMesh and its indexed builders -/

/-- The error shape produced by the excerpted `ValueMesh` builders
(`crate::v1::Error::InvalidRankCardinality`). -/
inductive MeshError where
  | invalidRankCardinality (expected actual : Nat)
deriving DecidableEq

/-- `ValueMesh` (value_mesh.rs lines 25-28): a region together with one
value per rank. -/
structure ValueMesh (T : Type) where
  region : Region
  ranks : List T
deriving DecidableEq

/-- Loop state of `ValueMesh::build_indexed` (value_mesh.rs lines
118-323). The uninitialized buffer is modelled as `Option`-slots
(`none` = uninitialized), the occupancy bitset as a list of 64-bit
words, plus the `filled` counter. The ghost field `dropped` records, in
order, each value destroyed by the loop's `drop_in_place` on a
duplicate rank. -/
structure BuildState (T : Type) where
  buf : List (Option T)
  bits : List Nat
  filled : Nat
  dropped : List T

/-- Initial builder state: `n` uninitialized slots and
`n.div_ceil(64)` zeroed bitset words. -/
def buildInit (T : Type) (n : Nat) : BuildState T :=
  ⟨List.replicate n none, List.replicate ((n + 63) / 64) 0, 0, []⟩

/-- One iteration of the `build_indexed` fill loop (value_mesh.rs lines
269-323): bounds check, then either a duplicate overwrite (old value
dropped, `filled` unchanged) or a fresh write (bit set, `filled`
incremented). -/
def buildStep {T : Type} (n : Nat) (st : BuildState T) (p : Nat × T) :
    Except MeshError (BuildState T) :=
  if p.1 ≥ n then
    .error (.invalidRankCardinality n (p.1 + 1))
  else
    let w := p.1 / 64
    let b := p.1 % 64
    let mask := 2 ^ b
    let word := st.bits.getD w 0
    if word &&& mask ≠ 0 then
      .ok ⟨st.buf.set p.1 (some p.2), st.bits, st.filled,
        match st.buf.getD p.1 none with
        | some old => st.dropped ++ [old]
        | none => st.dropped⟩
    else
      .ok ⟨st.buf.set p.1 (some p.2), st.bits.set w (word ||| mask),
        st.filled + 1, st.dropped⟩

/-- The `build_indexed` fill loop over all pairs. -/
def buildLoop {T : Type} (n : Nat) :
    List (Nat × T) → BuildState T → Except MeshError (BuildState T)
  | [], st => .ok st
  | p :: ps, st => do buildLoop n ps (← buildStep n st p)

/-- `ValueMesh::build_indexed` (value_mesh.rs lines 118-351): fill an
uninitialized buffer guided by the bitset; fail on the first
out-of-bounds rank or on incomplete coverage; on success the fully
initialized buffer becomes the rank vector. -/
def buildIndexed {T : Type} (region : Region) (pairs : List (Nat × T)) :
    Except MeshError (ValueMesh T) := do
  let n := region.numRanks
  let st ← buildLoop n pairs (buildInit T n)
  if st.filled ≠ n then
    .error (.invalidRankCardinality n st.filled)
  else
    .ok ⟨region, st.buf.filterMap id⟩

/-- One iteration of the naïve reference loop
(`build_value_mesh_indexed`, value_mesh.rs lines 626-640). -/
def naiveStep {T : Type} (n : Nat) (st : List (Option T) × Nat) (p : Nat × T) :
    Except MeshError (List (Option T) × Nat) :=
  if p.1 ≥ n then
    .error (.invalidRankCardinality n (p.1 + 1))
  else
    .ok (st.1.set p.1 (some p.2),
      if (st.1.getD p.1 none).isNone then st.2 + 1 else st.2)

/-- The naïve reference fill loop over all pairs. -/
def naiveLoop {T : Type} (n : Nat) :
    List (Nat × T) → List (Option T) × Nat → Except MeshError (List (Option T) × Nat)
  | [], st => .ok st
  | p :: ps, st => do naiveLoop n ps (← naiveStep n st p)

/-- The naïve `Option<T>`-array reference implementation
`build_value_mesh_indexed` (value_mesh.rs lines 616-653). -/
def buildValueMeshIndexed {T : Type} (region : Region) (pairs : List (Nat × T)) :
    Except MeshError (ValueMesh T) := do
  let n := region.numRanks
  let st ← naiveLoop n pairs (List.replicate n none, 0)
  if st.2 ≠ n then
    .error (.invalidRankCardinality n st.2)
  else
    .ok ⟨region, st.1.filterMap id⟩

theorem getD_set_self {α : Type} (l : List α) (i : Nat) (hi : i < l.length) (a d : α) :
    (l.set i a).getD i d = a := by
  rw [List.getD_eq_getElem?_getD, List.getElem?_set_self (by omega)]
  rfl

theorem getD_set_ne {α : Type} (l : List α) {i j : Nat} (h : i ≠ j) (a : α) (d : α) :
    (l.set i a).getD j d = l.getD j d := by
  rw [List.getD_eq_getElem?_getD, List.getD_eq_getElem?_getD, List.getElem?_set_ne h]

theorem getD_replicate_lt {α : Type} (n i : Nat) (hi : i < n) (a d : α) :
    (List.replicate n a).getD i d = a := by
  rw [List.getD_eq_getElem?_getD, List.getElem?_replicate]
  simp [hi]

theorem and_two_pow_ne_zero (word b : Nat) :
    (word &&& 2 ^ b ≠ 0) ↔ word.testBit b = true := by
  rw [Nat.and_two_pow]
  have h2 := Nat.two_pow_pos b
  cases h : word.testBit b <;> simp <;> omega


theorem except_bind_ok {e a b : Type} (x : a) (f : a → Except e b) :
    (Except.ok x >>= f) = f x := rfl

theorem except_bind_error {e a b : Type} (err : e) (f : a → Except e b) :
    ((Except.error err : Except e a) >>= f) = Except.error err := rfl

/-- Coupling invariant between the optimized and the naïve builder
states: equal buffers and fill counters, a correctly sized bitset that
mirrors slot occupancy bit by bit. -/
def BuildInv {T : Type} (n : Nat) (st : BuildState T) (nst : List (Option T) × Nat) : Prop :=
  st.buf = nst.1 ∧ st.filled = nst.2 ∧ st.buf.length = n ∧
    st.bits.length = (n + 63) / 64 ∧
    ∀ i < n, (st.bits.getD (i / 64) 0).testBit (i % 64) = (st.buf.getD i none).isSome

theorem buildInv_init {T : Type} (n : Nat) :
    BuildInv n (buildInit T n) (List.replicate n none, 0) := by
  refine ⟨rfl, rfl, by simp [buildInit], by simp [buildInit], ?_⟩
  intro i hi
  unfold buildInit
  have h1 : (List.replicate ((n + 63) / 64) 0).getD (i / 64) 0 = 0 := by
    rw [List.getD_eq_getElem?_getD, List.getElem?_replicate]
    split <;> rfl
  simp only [h1, getD_replicate_lt n i hi]
  simp

theorem buildStep_agree {T : Type} (n : Nat) (st : BuildState T)
    (nst : List (Option T) × Nat) (p : Nat × T) (h : BuildInv n st nst) :
    (∃ e, buildStep n st p = .error e ∧ naiveStep n nst p = .error e) ∨
    (∃ st2 nst2, buildStep n st p = .ok st2 ∧ naiveStep n nst p = .ok nst2 ∧
      BuildInv n st2 nst2) := by
  obtain ⟨hbuf, hfill, hlen, hbits, hocc⟩ := h
  obtain ⟨rank, value⟩ := p
  by_cases hr : rank ≥ n
  · left
    exact ⟨.invalidRankCardinality n (rank + 1),
      by simp [buildStep, hr], by simp [naiveStep, hr]⟩
  · right
    have hrn : rank < n := by omega
    have hw : rank / 64 < st.bits.length := by rw [hbits]; omega
    have hoccr := hocc rank hrn
    by_cases hdup : (st.bits.getD (rank / 64) 0) &&& 2 ^ (rank % 64) ≠ 0
    · -- duplicate: slot already initialized
      have hsome : (st.buf.getD rank none).isSome = true := by
        rw [← hoccr]
        exact (and_two_pow_ne_zero _ _).mp hdup
      have hnone : nst.1[rank]?.getD none ≠ none := by
        rw [← List.getD_eq_getElem?_getD, ← hbuf]
        cases hopt : st.buf.getD rank none with
        | none => rw [hopt] at hsome; simp at hsome
        | some o => simp
      refine ⟨⟨st.buf.set rank (some value), st.bits, st.filled,
          match st.buf.getD rank none with
          | some old => st.dropped ++ [old]
          | none => st.dropped⟩,
        (nst.1.set rank (some value), nst.2), ?_, ?_, ?_⟩
      · simp only [buildStep, if_neg (by omega : ¬rank ≥ n), if_pos hdup]
      · simp [naiveStep, hr, hnone]
      · refine ⟨by simp [hbuf], by simp [hfill], by simp [hlen], by simpa using hbits, ?_⟩
        intro i hi
        simp only
        by_cases hij : i = rank
        · subst hij
          rw [getD_set_self _ _ (by omega) _ _]
          simpa using (and_two_pow_ne_zero _ _).mp hdup
        · rw [getD_set_ne _ (fun hh => hij hh.symm) _ _]
          exact hocc i hi
    · -- fresh rank: set the bit, bump `filled`
      have hfalse : (st.buf.getD rank none).isSome = false := by
        rw [← hoccr]
        rcases Bool.eq_false_or_eq_true ((st.bits.getD (rank / 64) 0).testBit (rank % 64)) with h1 | h1
        · exact absurd ((and_two_pow_ne_zero _ _).mpr h1) hdup
        · exact h1
      have hnone : nst.1[rank]?.getD none = none := by
        rw [← List.getD_eq_getElem?_getD, ← hbuf]
        cases hopt : st.buf.getD rank none with
        | none => rfl
        | some o => rw [hopt] at hfalse; simp at hfalse
      refine ⟨⟨st.buf.set rank (some value),
          st.bits.set (rank / 64) (st.bits.getD (rank / 64) 0 ||| 2 ^ (rank % 64)),
          st.filled + 1, st.dropped⟩,
        (nst.1.set rank (some value), nst.2 + 1), ?_, ?_, ?_⟩
      · simp only [buildStep, if_neg (by omega : ¬rank ≥ n), if_neg hdup]
      · simp [naiveStep, hr, hnone]
      · refine ⟨by simp [hbuf], by simp [hfill], by simp [hlen], by simpa using hbits, ?_⟩
        intro i hi
        simp only
        by_cases hij : i = rank
        · rw [hij, getD_set_self st.bits (rank / 64) hw _ _,
            getD_set_self st.buf rank (by omega) _ _]
          simp [Nat.testBit_or, Nat.testBit_two_pow_self]
        · rw [getD_set_ne _ (fun hh => hij hh.symm) _ _]
          by_cases hwij : i / 64 = rank / 64
          · have hb2 : i % 64 ≠ rank % 64 := by omega
            rw [hwij, getD_set_self _ _ hw _ _]
            rw [Nat.testBit_or, Nat.testBit_two_pow_of_ne (fun hh => hb2 hh.symm),
              Bool.or_false, ← hwij]
            exact hocc i hi
          · rw [getD_set_ne _ (fun hh => hwij hh.symm) _ _]
            exact hocc i hi

theorem buildLoop_agree {T : Type} (n : Nat) (ps : List (Nat × T))
    (st : BuildState T) (nst : List (Option T) × Nat) (h : BuildInv n st nst) :
    (∃ e, buildLoop n ps st = .error e ∧ naiveLoop n ps nst = .error e) ∨
    (∃ st2 nst2, buildLoop n ps st = .ok st2 ∧ naiveLoop n ps nst = .ok nst2 ∧
      BuildInv n st2 nst2) := by
  induction ps generalizing st nst with
  | nil => exact .inr ⟨st, nst, rfl, rfl, h⟩
  | cons p ps ih =>
    rcases buildStep_agree n st nst p h with ⟨e, h1, h2⟩ | ⟨st2, nst2, h1, h2, hinv⟩
    · left
      exact ⟨e, by simp [buildLoop, h1, except_bind_error], by simp [naiveLoop, h2, except_bind_error]⟩
    · have := ih st2 nst2 hinv
      rcases this with ⟨e, h3, h4⟩ | ⟨st3, nst3, h3, h4, hinv3⟩
      · left
        exact ⟨e, by simp [buildLoop, h1, h3, except_bind_ok], by simp [naiveLoop, h2, h4, except_bind_ok]⟩
      · right
        exact ⟨st3, nst3, by simp [buildLoop, h1, h3, except_bind_ok], by simp [naiveLoop, h2, h4, except_bind_ok], hinv3⟩

/-- C1. The optimized `ValueMesh::build_indexed` (uninitialized buffer
plus bitset) and the naïve `Option<T>`-array reference implementation
`build_value_mesh_indexed` produce identical results on every region and
pair sequence: on success the same region and values, on failure the
same `InvalidRankCardinality` error with the same fields. -/
theorem build_indexed_refines_naive {T : Type} (region : Region)
    (pairs : List (Nat × T)) :
    buildIndexed region pairs = buildValueMeshIndexed region pairs := by
  rcases buildLoop_agree region.numRanks pairs (buildInit T region.numRanks)
      (List.replicate region.numRanks none, 0) (buildInv_init region.numRanks) with
    ⟨e, h1, h2⟩ | ⟨st2, nst2, h1, h2, hbuf, hfill, -⟩
  · simp [buildIndexed, buildValueMeshIndexed, h1, h2, except_bind_error]
  · simp [buildIndexed, buildValueMeshIndexed, h1, h2, hbuf, hfill, except_bind_ok]

theorem buildStep_isOk {T : Type} (n : Nat) (st : BuildState T) (p : Nat × T)
    (hp : p.1 < n) : ∃ st2, buildStep n st p = .ok st2 := by
  simp only [buildStep]
  rw [if_neg (by omega : ¬p.1 ≥ n)]
  by_cases h : st.bits.getD (p.1 / 64) 0 &&& 2 ^ (p.1 % 64) ≠ 0
  · rw [if_pos h]; exact ⟨_, rfl⟩
  · rw [if_neg h]; exact ⟨_, rfl⟩

theorem buildLoop_oob {T : Type} (n : Nat) (pre : List (Nat × T)) (r : Nat) (v : T)
    (post : List (Nat × T)) (st : BuildState T)
    (hpre : ∀ p ∈ pre, p.1 < n) (hr : n ≤ r) :
    buildLoop n (pre ++ (r, v) :: post) st =
      .error (.invalidRankCardinality n (r + 1)) := by
  induction pre generalizing st with
  | nil =>
    have hstep : buildStep n st (r, v) = .error (.invalidRankCardinality n (r + 1)) := by
      simp [buildStep, hr]
    simp [buildLoop, hstep, except_bind_error]
  | cons p pre ih =>
    obtain ⟨st2, hst2⟩ := buildStep_isOk n st p (hpre p (List.mem_cons_self _ _))
    simp only [List.cons_append, buildLoop, hst2, except_bind_ok]
    exact ih _ (fun q hq => hpre q (List.mem_cons_of_mem _ hq))

/-- C5. `ValueMesh::build_indexed` fails on the first out-of-bounds pair:
if every earlier pair is in bounds and the pair `(r, v)` has
`r ≥ num_ranks`, the call returns `InvalidRankCardinality` with
`expected = num_ranks` and `actual = r + 1`, regardless of (without
consuming) the later pairs. -/
theorem build_indexed_first_oob_fails {T : Type} (region : Region)
    (pre : List (Nat × T)) (r : Nat) (v : T) (post : List (Nat × T))
    (hpre : ∀ p ∈ pre, p.1 < region.numRanks) (hr : region.numRanks ≤ r) :
    buildIndexed region (pre ++ (r, v) :: post) =
      .error (.invalidRankCardinality region.numRanks (r + 1)) := by
  have h := buildLoop_oob region.numRanks pre r v post
    (buildInit T region.numRanks) hpre hr
  simp [buildIndexed, h, except_bind_error]

/-- Witness for C5: a region of 4 ranks with the pair (4, _) gives
`InvalidRankCardinality { expected: 4, actual: 5 }`, with a later pair
left unconsumed. -/
theorem build_indexed_first_oob_fails_witness :
    (∀ p ∈ ([(0, 7)] : List (Nat × Nat)),
        p.1 < (⟨[['q']], ⟨0, [4], [1]⟩⟩ : Region).numRanks) ∧
      (⟨[['q']], ⟨0, [4], [1]⟩⟩ : Region).numRanks ≤ 4 ∧
      buildIndexed (⟨[['q']], ⟨0, [4], [1]⟩⟩ : Region)
          ([(0, 7)] ++ (4, (9 : Nat)) :: [(1, 5)]) =
        .error (.invalidRankCardinality 4 5) :=
  ⟨by decide, by decide,
    build_indexed_first_oob_fails (⟨[['q']], ⟨0, [4], [1]⟩⟩ : Region)
      [(0, 7)] 4 9 [(1, 5)] (by decide) (by decide)⟩

/-- Occupancy invariant of the optimized builder state: the buffer has
`n` slots, the bitset has `n.div_ceil(64)` words, and each bit mirrors
whether its slot is initialized. -/
def OccInv {T : Type} (n : Nat) (st : BuildState T) : Prop :=
  st.buf.length = n ∧ st.bits.length = (n + 63) / 64 ∧
    ∀ i < n, (st.bits.getD (i / 64) 0).testBit (i % 64) = (st.buf.getD i none).isSome

theorem filterMap_set_perm {T : Type} :
    ∀ (l : List (Option T)) (i : Nat), i < l.length → ∀ v : T,
    ((l.set i (some v)).filterMap id ++
      (match l.getD i none with | some o => [o] | none => [])).Perm
      (v :: l.filterMap id) := by
  intro l
  induction l with
  | nil => intro i hi; simp at hi
  | cons a tl ih =>
    intro i hi v
    cases i with
    | zero =>
      cases a with
      | none => simp [List.filterMap_cons]
      | some x =>
        simp only [List.set_cons_zero, List.filterMap_cons, id, List.getD_cons_zero]
        simpa using (List.perm_append_singleton x (tl.filterMap id)).cons v
    | succ i =>
      have hi2 : i < tl.length := by simpa using hi
      cases a with
      | none =>
        simp only [List.set_cons_succ, List.filterMap_cons, id, List.getD_cons_succ]
        exact ih i hi2 v
      | some x =>
        simp only [List.set_cons_succ, List.filterMap_cons, id, List.getD_cons_succ]
        have h1 := (ih i hi2 v).cons x
        have h2 := List.Perm.swap v x (tl.filterMap id)
        simpa [List.cons_append] using h1.trans h2

theorem buildStep_ok_char {T : Type} (n : Nat) (st : BuildState T) (p : Nat × T)
    (hp : p.1 < n) (ho : OccInv n st) :
    ∃ st2, buildStep n st p = .ok st2 ∧ OccInv n st2 ∧
      st2.buf = st.buf.set p.1 (some p.2) ∧
      st2.dropped = (match st.buf.getD p.1 none with
        | some o => st.dropped ++ [o]
        | none => st.dropped) ∧
      st2.filled = (if (st.buf.getD p.1 none).isSome then st.filled else st.filled + 1) := by
  obtain ⟨hlen, hbits, hocc⟩ := ho
  obtain ⟨rank, value⟩ := p
  simp only at hp
  have hw : rank / 64 < st.bits.length := by rw [hbits]; omega
  have hoccr := hocc rank hp
  by_cases hdup : st.bits.getD (rank / 64) 0 &&& 2 ^ (rank % 64) ≠ 0
  · have hsome : (st.buf.getD rank none).isSome = true := by
      rw [← hoccr]; exact (and_two_pow_ne_zero _ _).mp hdup
    refine ⟨⟨st.buf.set rank (some value), st.bits, st.filled,
        match st.buf.getD rank none with
        | some old => st.dropped ++ [old]
        | none => st.dropped⟩,
      by simp only [buildStep, if_neg (by omega : ¬rank ≥ n), if_pos hdup], ?_, rfl, rfl, ?_⟩
    · refine ⟨by simp [hlen], hbits, ?_⟩
      intro i hi
      simp only
      by_cases hij : i = rank
      · rw [hij, getD_set_self st.buf rank (by omega) _ _]
        simpa using (and_two_pow_ne_zero _ _).mp hdup
      · rw [getD_set_ne _ (fun hh => hij hh.symm) _ _]
        exact hocc i hi
    · rw [List.getD_eq_getElem?_getD] at hsome
      simp [hsome]
  · have hfalse : (st.buf.getD rank none).isSome = false := by
      rw [← hoccr]
      rcases Bool.eq_false_or_eq_true ((st.bits.getD (rank / 64) 0).testBit (rank % 64)) with h1 | h1
      · exact absurd ((and_two_pow_ne_zero _ _).mpr h1) hdup
      · exact h1
    refine ⟨⟨st.buf.set rank (some value),
        st.bits.set (rank / 64) (st.bits.getD (rank / 64) 0 ||| 2 ^ (rank % 64)),
        st.filled + 1, st.dropped⟩,
      by simp only [buildStep, if_neg (by omega : ¬rank ≥ n), if_neg hdup],
      ?_, rfl, ?_, ?_⟩
    · refine ⟨by simp [hlen], by simpa using hbits, ?_⟩
      intro i hi
      simp only
      by_cases hij : i = rank
      · rw [hij, getD_set_self st.bits (rank / 64) hw _ _,
          getD_set_self st.buf rank (by omega) _ _]
        simp [Nat.testBit_or, Nat.testBit_two_pow_self]
      · rw [getD_set_ne _ (fun hh => hij hh.symm) _ _]
        by_cases hwij : i / 64 = rank / 64
        · have hb2 : i % 64 ≠ rank % 64 := by omega
          rw [hwij, getD_set_self st.bits (rank / 64) hw _ _]
          rw [Nat.testBit_or, Nat.testBit_two_pow_of_ne (fun hh => hb2 hh.symm),
            Bool.or_false, ← hwij]
          exact hocc i hi
        · rw [getD_set_ne _ (fun hh => hwij hh.symm) _ _]
          exact hocc i hi
    · cases hopt : st.buf.getD rank none with
      | none => simp
      | some o => rw [hopt] at hfalse; simp at hfalse
    · rw [List.getD_eq_getElem?_getD] at hfalse
      simp [hfalse]

theorem getLast?_cons_or {α : Type} (x : α) (xs : List α) :
    (x :: xs).getLast? = xs.getLast?.or (some x) := by
  induction xs generalizing x with
  | nil => rfl
  | cons y ys ih =>
    rw [List.getLast?_cons_cons, ih y]
    cases hys : ys.getLast? <;> simp

/-- The value assigned to rank `i` by the last pair carrying rank `i`. -/
def lastWrite {T : Type} (pairs : List (Nat × T)) (i : Nat) : Option T :=
  ((pairs.filter (fun p => p.1 == i)).map Prod.snd).getLast?

theorem lastWrite_cons {T : Type} (p : Nat × T) (ps : List (Nat × T)) (i : Nat) :
    lastWrite (p :: ps) i =
      if p.1 = i then (lastWrite ps i).or (some p.2) else lastWrite ps i := by
  unfold lastWrite
  by_cases h : p.1 = i
  · simp [List.filter_cons, h, getLast?_cons_or]
  · simp [List.filter_cons, h]

theorem buildLoop_ok_char {T : Type} (n : Nat) (pairs : List (Nat × T))
    (st : BuildState T) (hin : ∀ p ∈ pairs, p.1 < n) (ho : OccInv n st) :
    ∃ st2, buildLoop n pairs st = .ok st2 ∧ OccInv n st2 ∧
      (∀ i, i < n →
        st2.buf.getD i none = (lastWrite pairs i).or (st.buf.getD i none)) ∧
      (st2.dropped ++ st2.buf.filterMap id).Perm
        (st.dropped ++ pairs.map Prod.snd ++ st.buf.filterMap id) ∧
      st2.filled + (st.buf.filterMap id).length =
        st.filled + (st2.buf.filterMap id).length := by
  induction pairs generalizing st with
  | nil =>
    refine ⟨st, rfl, ho, ?_, by simp, by simp⟩
    intro i hi
    simp [lastWrite, List.filter_nil]
  | cons p ps ih =>
    have hp : p.1 < n := hin p (List.mem_cons_self _ _)
    obtain ⟨st1, hstep, ho1, hbuf1, hdrop1, hfill1⟩ := buildStep_ok_char n st p hp ho
    obtain ⟨st2, hloop, ho2, hget2, hperm2, hfill2⟩ :=
      ih st1 (fun q hq => hin q (List.mem_cons_of_mem _ hq)) ho1
    have hplen : p.1 < st.buf.length := by rw [ho.1]; omega
    -- per-step multiset accounting for the buffer values
    have hkey := filterMap_set_perm st.buf p.1 hplen p.2
    refine ⟨st2, by simp [buildLoop, hstep, except_bind_ok, hloop], ho2, ?_, ?_, ?_⟩
    · intro i hi
      rw [hget2 i hi, hbuf1, lastWrite_cons]
      by_cases hpi : p.1 = i
      · rw [if_pos hpi, hpi, getD_set_self st.buf i (by rw [ho.1]; omega) _ _]
        cases hlw : lastWrite ps i <;> simp
      · rw [if_neg hpi, getD_set_ne _ hpi _ _]
    · -- dropped ++ values is a permutation of all processed values
      rcases hopt : st.buf.getD p.1 none with - | o
      · -- fresh slot
        rw [hopt] at hdrop1 hkey
        simp only [List.append_nil] at hkey
        have hstep2 : (st1.dropped ++ ps.map Prod.snd ++ st1.buf.filterMap id).Perm
            (st.dropped ++ (p :: ps).map Prod.snd ++ st.buf.filterMap id) := by
          rw [hdrop1, hbuf1, List.map_cons]
          have h1 := List.Perm.append_left (st.dropped ++ ps.map Prod.snd) hkey
          have h2 : ((st.dropped ++ ps.map Prod.snd) ++ (p.2 :: st.buf.filterMap id)).Perm
              ((st.dropped ++ (p.2 :: ps.map Prod.snd)) ++ st.buf.filterMap id) := by
            rw [List.append_assoc, List.append_assoc]
            exact List.Perm.append_left st.dropped List.perm_middle
          exact h1.trans h2
        exact hperm2.trans hstep2
      · -- duplicate slot: the old value is dropped exactly once
        rw [hopt] at hdrop1 hkey
        have hstep2 : (st1.dropped ++ ps.map Prod.snd ++ st1.buf.filterMap id).Perm
            (st.dropped ++ (p :: ps).map Prod.snd ++ st.buf.filterMap id) := by
          rw [hdrop1, hbuf1, List.map_cons]
          have h3 : (o :: (ps.map Prod.snd ++ (st.buf.set p.1 (some p.2)).filterMap id)).Perm
              (p.2 :: (ps.map Prod.snd ++ st.buf.filterMap id)) := by
            have a1 : (o :: (ps.map Prod.snd ++ (st.buf.set p.1 (some p.2)).filterMap id)).Perm
                (ps.map Prod.snd ++ (o :: (st.buf.set p.1 (some p.2)).filterMap id)) :=
              List.perm_middle.symm
            have a2 := List.Perm.append_left (ps.map Prod.snd)
              ((List.perm_append_singleton o ((st.buf.set p.1 (some p.2)).filterMap id)).symm)
            have a3 := List.Perm.append_left (ps.map Prod.snd) hkey
            have a4 : (ps.map Prod.snd ++ (p.2 :: st.buf.filterMap id)).Perm
                (p.2 :: (ps.map Prod.snd ++ st.buf.filterMap id)) :=
              List.perm_middle
            exact a1.trans (a2.trans (a3.trans a4))
          have e1 : (st.dropped ++ [o]) ++ ps.map Prod.snd ++
                (st.buf.set p.1 (some p.2)).filterMap id =
              st.dropped ++ (o :: (ps.map Prod.snd ++
                (st.buf.set p.1 (some p.2)).filterMap id)) := by
            simp [List.append_assoc]
          have e2 : st.dropped ++ (p.2 :: ps.map Prod.snd) ++ st.buf.filterMap id =
              st.dropped ++ (p.2 :: (ps.map Prod.snd ++ st.buf.filterMap id)) := by
            simp [List.append_assoc]
          rw [e1, e2]
          exact List.Perm.append_left st.dropped h3
        exact hperm2.trans hstep2
    · -- filled accounting
      have hlenkey := hkey.length_eq
      rcases hopt : st.buf.getD p.1 none with - | o
      · rw [hopt] at hfill1 hlenkey
        simp at hfill1 hlenkey
        rw [hbuf1] at hfill2
        omega
      · rw [hopt] at hfill1 hlenkey
        simp at hfill1 hlenkey
        rw [hbuf1] at hfill2
        omega

theorem filterMap_id_replicate_none {T : Type} (n : Nat) :
    (List.replicate n (none : Option T)).filterMap id = [] := by
  induction n with
  | zero => rfl
  | succ n ih => simp [List.replicate_succ, List.filterMap_cons, ih]

theorem filterMap_id_getElem_of_all_some {T : Type} :
    ∀ (l : List (Option T)), (∀ j, j < l.length → (l.getD j none).isSome) →
      ∀ i, (l.filterMap id)[i]? = l.getD i none := by
  intro l
  induction l with
  | nil => intro h i; simp [List.getD]
  | cons a tl ih =>
    intro h i
    have h0 := h 0 (by simp)
    cases a with
    | none => simp at h0
    | some x =>
      cases i with
      | zero => simp [List.filterMap_cons]
      | succ i =>
        simp only [List.filterMap_cons, id, List.getD_cons_succ, List.getElem?_cons_succ]
        exact ih (fun j hj => by simpa using h (j + 1) (by simpa using hj)) i

theorem filterMap_id_length_of_all_some {T : Type} :
    ∀ (l : List (Option T)), (∀ j, j < l.length → (l.getD j none).isSome) →
      (l.filterMap id).length = l.length := by
  intro l
  induction l with
  | nil => simp
  | cons a tl ih =>
    intro h
    have h0 := h 0 (by simp)
    cases a with
    | none => simp at h0
    | some x =>
      simp only [List.filterMap_cons, id, List.length_cons]
      rw [ih (fun j hj => by simpa using h (j + 1) (by simpa using hj))]

/-- C4. Duplicate ranks are allowed and the last write wins: for
in-bounds pairs whose ranks cover the region, `build_indexed` succeeds,
the mesh holds at each rank the value of the last pair with that rank,
each value overwritten by a duplicate is destroyed exactly once (the
dropped values together with the surviving values are a permutation of
all supplied values), and the `filled` counter is never bumped by a
duplicate (it always equals the number of initialized slots). -/
theorem build_indexed_last_write_wins {T : Type} (region : Region)
    (pairs : List (Nat × T))
    (hin : ∀ p ∈ pairs, p.1 < region.numRanks)
    (hcov : ∀ i, i < region.numRanks → ∃ p ∈ pairs, p.1 = i) :
    ∃ st, buildLoop region.numRanks pairs (buildInit T region.numRanks) = .ok st ∧
      (∀ i, i < region.numRanks → (st.buf.filterMap id)[i]? = lastWrite pairs i) ∧
      (st.dropped ++ st.buf.filterMap id).Perm (pairs.map Prod.snd) ∧
      st.filled = (st.buf.filterMap id).length ∧
      st.filled = region.numRanks ∧
      buildIndexed region pairs = .ok ⟨region, st.buf.filterMap id⟩ := by
  set n := region.numRanks with hn
  have hb := buildInv_init (T := T) n
  have ho : OccInv n (buildInit T n) := ⟨hb.2.2.1, hb.2.2.2.1, hb.2.2.2.2⟩
  obtain ⟨st, hloop, ho2, hget, hperm, hfillacc⟩ := buildLoop_ok_char n pairs _ hin ho
  have hinit_getD : ∀ i, i < n → (buildInit T n).buf.getD i none = none := by
    intro i hi
    exact getD_replicate_lt n i hi none none
  have hgetD : ∀ i, i < n → st.buf.getD i none = lastWrite pairs i := by
    intro i hi
    rw [hget i hi, hinit_getD i hi]
    cases hlw : lastWrite pairs i <;> simp
  have hsome : ∀ i, i < n → (st.buf.getD i none).isSome := by
    intro i hi
    rw [hgetD i hi]
    obtain ⟨p, hp, rfl⟩ := hcov i hi
    unfold lastWrite
    rw [Option.isSome_iff_ne_none]
    intro hlast
    rw [List.getLast?_eq_none_iff] at hlast
    have : p ∈ pairs.filter (fun q => q.1 == p.1) :=
      List.mem_filter.mpr ⟨hp, by simp⟩
    rw [List.map_eq_nil] at hlast
    rw [hlast] at this
    simp at this
  have hbuflen : st.buf.length = n := ho2.1
  have hsome2 : ∀ j, j < st.buf.length → (st.buf.getD j none).isSome := by
    intro j hj; exact hsome j (by omega)
  have hvallen : (st.buf.filterMap id).length = st.buf.length :=
    filterMap_id_length_of_all_some st.buf hsome2
  have hfilled : st.filled = (st.buf.filterMap id).length := by
    have : (buildInit T n).buf.filterMap id = [] := by
      simp [buildInit, filterMap_id_replicate_none]
    rw [this] at hfillacc
    simpa [buildInit] using hfillacc
  have hfilledn : st.filled = n := by rw [hfilled, hvallen, hbuflen]
  refine ⟨st, hloop, ?_, ?_, hfilled, hfilledn, ?_⟩
  · intro i hi
    rw [filterMap_id_getElem_of_all_some st.buf hsome2 i, hgetD i hi]
  · have := hperm
    simp only [buildInit, filterMap_id_replicate_none, List.append_nil, List.nil_append] at this
    exact this
  · simp [buildIndexed, ← hn, hloop, except_bind_ok, hfilledn]

/-- Witness for C4: region {x: 1, y: 3} with pairs
[(0,7), (1,8), (1,88), (2,9)] builds values [7, 88, 9]. -/
theorem build_indexed_last_write_wins_witness :
    (∀ p ∈ ([(0, 7), (1, 8), (1, 88), (2, 9)] : List (Nat × Nat)),
        p.1 < (⟨[['x'], ['y']], ⟨0, [1, 3], [3, 1]⟩⟩ : Region).numRanks) ∧
      (∀ i, i < (⟨[['x'], ['y']], ⟨0, [1, 3], [3, 1]⟩⟩ : Region).numRanks →
        ∃ p ∈ ([(0, 7), (1, 8), (1, 88), (2, 9)] : List (Nat × Nat)), p.1 = i) ∧
      (∃ st, buildLoop (⟨[['x'], ['y']], ⟨0, [1, 3], [3, 1]⟩⟩ : Region).numRanks
            [(0, 7), (1, 8), (1, 88), (2, 9)]
            (buildInit Nat (⟨[['x'], ['y']], ⟨0, [1, 3], [3, 1]⟩⟩ : Region).numRanks) = .ok st ∧
        (∀ i, i < (⟨[['x'], ['y']], ⟨0, [1, 3], [3, 1]⟩⟩ : Region).numRanks →
          (st.buf.filterMap id)[i]? = lastWrite [(0, 7), (1, 8), (1, 88), (2, 9)] i) ∧
        (st.dropped ++ st.buf.filterMap id).Perm
          (([(0, 7), (1, 8), (1, 88), (2, 9)] : List (Nat × Nat)).map Prod.snd) ∧
        st.filled = (st.buf.filterMap id).length ∧
        st.filled = (⟨[['x'], ['y']], ⟨0, [1, 3], [3, 1]⟩⟩ : Region).numRanks ∧
        buildIndexed (⟨[['x'], ['y']], ⟨0, [1, 3], [3, 1]⟩⟩ : Region)
            [(0, 7), (1, 8), (1, 88), (2, 9)] =
          .ok ⟨⟨[['x'], ['y']], ⟨0, [1, 3], [3, 1]⟩⟩, st.buf.filterMap id⟩) ∧
      buildIndexed (⟨[['x'], ['y']], ⟨0, [1, 3], [3, 1]⟩⟩ : Region)
          [(0, 7), (1, 8), (1, 88), (2, 9)] =
        .ok ⟨⟨[['x'], ['y']], ⟨0, [1, 3], [3, 1]⟩⟩, [7, 88, 9]⟩ :=
  ⟨by decide, by decide,
    build_indexed_last_write_wins (⟨[['x'], ['y']], ⟨0, [1, 3], [3, 1]⟩⟩ : Region)
      [(0, 7), (1, 8), (1, 88), (2, 9)] (by decide) (by decide),
    by decide⟩

/-! ## Process-global supervision sink (proc_mesh.rs lines 82-136) -/

/-- `set_global_supervision_sink` (proc_mesh.rs lines 113-121): under
the write lock, take the stored handle and replace it with the new one,
returning the previous handle. The global cell is modelled as explicit
state: the result is `(returned previous sink, new cell contents)`. -/
def setGlobalSupervisionSink {H : Type} (sink : H) (cell : Option H) :
    Option H × Option H :=
  (cell, some sink)

/-- `get_global_supervision_sink` (proc_mesh.rs lines 134-136): a clone
of the current handle under the read lock. -/
def getGlobalSupervisionSink {H : Type} (cell : Option H) : Option H := cell

/-- Apply a sequence of sink installs, collecting each call's returned
previous handle along with the final cell contents. -/
def runSinkInstalls {H : Type} : Option H → List H → Option H × List (Option H)
  | cell, [] => (cell, [])
  | cell, s :: rest =>
    let r := setGlobalSupervisionSink s cell
    let fin := runSinkInstalls r.2 rest
    (fin.1, r.1 :: fin.2)

/-- C8. Last-sink-wins: over any sequence of installs each call returns
the handle installed just before it (`none` at the start), and after the
final install `get_global_supervision_sink` returns the last installed
sink. -/
theorem global_sink_last_wins {H : Type} (cell : Option H) (calls : List H) (s : H) :
    (runSinkInstalls cell (calls ++ [s])).2 = cell :: calls.map some ∧
      getGlobalSupervisionSink (runSinkInstalls cell (calls ++ [s])).1 = some s := by
  induction calls generalizing cell with
  | nil => exact ⟨rfl, rfl⟩
  | cons c rest ih =>
    obtain ⟨h1, h2⟩ := ih (some c)
    refine ⟨?_, ?_⟩
    · simp only [List.cons_append, runSinkInstalls, setGlobalSupervisionSink,
        List.append_eq, h1, List.map_cons]
    · simpa [runSinkInstalls, setGlobalSupervisionSink] using h2

/-- Witness for C8: installing sinks 1 then 2 returns [none, some 1] and
leaves sink 2 installed. -/
theorem global_sink_last_wins_witness :
    (runSinkInstalls (none : Option Nat) ([1] ++ [2])).2 = none :: [1].map some ∧
      getGlobalSupervisionSink (runSinkInstalls (none : Option Nat) ([1] ++ [2])).1 =
        some 2 :=
  global_sink_last_wins none [1] 2

/-! ## ProcMesh event-state handoff (proc_mesh.rs lines 190-207, 569-582) -/

/-- `EventState` (proc_mesh.rs lines 204-207), with the alloc and the
supervision-event receiver abstracted. -/
structure EventState (A S : Type) where
  alloc : A
  supervisionEvents : S
deriving DecidableEq

/-- `ProcMesh` (proc_mesh.rs lines 190-202): the optional event state
plus the routing and shape fields, abstracted by type. `ranks` holds one
`(create_key, proc_id, addr, mesh_agent)` entry per rank. -/
structure ProcMesh (A S R Sh K P Ad G C Q W : Type) where
  eventState : Option (EventState A S)
  actorEventRouter : R
  shape : Sh
  ranks : List (K × P × Ad × G)
  client : C
  clientProc : Q
  commActors : List G
  worldId : W
deriving DecidableEq

/-- `ProcEvents` (proc_mesh.rs lines 659-664): the taken event state, a
proc-id to (rank, create_key) table, and the actor event router. -/
structure ProcEvents (A S R K P : Type) where
  eventState : EventState A S
  ranks : List (P × Nat × K)
  actorEventRouter : R
deriving DecidableEq

/-- `ProcMesh::events` (proc_mesh.rs lines 569-582):
`self.event_state.take()` empties the slot and, when it was occupied,
packages the state with the rank table and router into `ProcEvents`.
Returns the call's result together with the mesh afterwards. -/
def ProcMesh.events {A S R Sh K P Ad G C Q W : Type}
    (m : ProcMesh A S R Sh K P Ad G C Q W) :
    Option (ProcEvents A S R K P) × ProcMesh A S R Sh K P Ad G C Q W :=
  (m.eventState.map (fun es =>
      ⟨es, m.ranks.enum.map (fun e => (e.2.2.1, e.1, e.2.1)), m.actorEventRouter⟩),
    { m with eventState := none })

/-- C9. `events()` consumes the event state exactly once: on a mesh
whose slot is occupied the first call returns `some`, the second (and
hence every later) call returns `none` with the mesh unchanged, and the
rest of the mesh state survives the first call untouched. -/
theorem events_consumed_once {A S R Sh K P Ad G C Q W : Type}
    (m : ProcMesh A S R Sh K P Ad G C Q W) (es : EventState A S)
    (h : m.eventState = some es) :
    (m.events.1.isSome = true) ∧
      (m.events.2.events.1 = none) ∧
      (m.events.2.events.2 = m.events.2) ∧
      m.events.2.ranks = m.ranks ∧
      m.events.2.shape = m.shape ∧
      m.events.2.actorEventRouter = m.actorEventRouter ∧
      m.events.2.client = m.client ∧
      m.events.2.clientProc = m.clientProc ∧
      m.events.2.commActors = m.commActors ∧
      m.events.2.worldId = m.worldId := by
  refine ⟨?_, by simp [ProcMesh.events], by simp [ProcMesh.events],
    rfl, rfl, rfl, rfl, rfl, rfl, rfl⟩
  simp [ProcMesh.events, h]

/-- Witness for C9 at a concrete one-rank mesh over `Nat` components. -/
theorem events_consumed_once_witness :
    ((⟨some ⟨0, 0⟩, 1, 2, [(3, 4, 5, 6)], 7, 8, [9], 10⟩ :
        ProcMesh Nat Nat Nat Nat Nat Nat Nat Nat Nat Nat Nat).eventState =
      some ⟨0, 0⟩) ∧
      ((⟨some ⟨0, 0⟩, 1, 2, [(3, 4, 5, 6)], 7, 8, [9], 10⟩ :
          ProcMesh Nat Nat Nat Nat Nat Nat Nat Nat Nat Nat Nat).events.1.isSome = true) :=
  ⟨rfl,
    (events_consumed_once
      (⟨some ⟨0, 0⟩, 1, 2, [(3, 4, 5, 6)], 7, 8, [9], 10⟩ :
        ProcMesh Nat Nat Nat Nat Nat Nat Nat Nat Nat Nat Nat) ⟨0, 0⟩ rfl).1⟩

/-! ## RDMA send-queue ring discipline (monarch_rdma/src/test_utils.rs) -/

/-- The send-path ring counters of an `RdmaQueuePair`. -/
structure QpState where
  sendWqeIdx : Nat
  sendDbIdx : Nat
  sendCqIdx : Nat
deriving DecidableEq

/-- `send_wqe_gpu` (test_utils.rs lines 131-159): launch the WQE build
kernel and increment `send_wqe_idx`; the function never fails. -/
def sendWqeGpu (s : QpState) : QpState :=
  { s with sendWqeIdx := s.sendWqeIdx + 1 }

/-- `ring_db_gpu` (test_utils.rs lines 192-209): fail with the overflow
message when `wqe_cnt < send_wqe_idx - send_db_idx`, otherwise ring the
doorbell for every index in `[send_db_idx, send_wqe_idx)`, leaving
`send_db_idx = send_wqe_idx`. -/
def ringDbGpu (wqeCnt : Nat) (s : QpState) : Except String QpState :=
  if wqeCnt < s.sendWqeIdx - s.sendDbIdx then
    .error "Overflow of WQE, possible data loss"
  else
    .ok { s with sendDbIdx := s.sendWqeIdx }

/-- One protocol step of the GPU-initiated send path. The completion
poll (`wait_for_completion_gpu`, test_utils.rs lines 239-245) advances
`send_cq_idx` on `CQE_POLL_TRUE`; the hardware completion-queue engine
is modelled from the spec: a send completion exists only for a WQE whose
doorbell has been rung, i.e. only while `send_cq_idx < send_db_idx`. -/
inductive QpStep (wqeCnt : Nat) : QpState → QpState → Prop where
  | enqueue (s : QpState) : QpStep wqeCnt s (sendWqeGpu s)
  | ring (s s2 : QpState) : ringDbGpu wqeCnt s = .ok s2 → QpStep wqeCnt s s2
  | pollOk (s : QpState) : s.sendCqIdx < s.sendDbIdx →
      QpStep wqeCnt s { s with sendCqIdx := s.sendCqIdx + 1 }

/-- States reachable from the freshly created queue pair (all counters
zero). -/
inductive QpReachable (wqeCnt : Nat) : QpState → Prop where
  | init : QpReachable wqeCnt ⟨0, 0, 0⟩
  | step {s s2 : QpState} : QpReachable wqeCnt s → QpStep wqeCnt s s2 →
      QpReachable wqeCnt s2

/-- Counterexample for C7: with `wqe_cnt = 4`, five unflushed enqueues
reach a state where `send_wqe_idx - send_db_idx = 5 > 4`, so the claimed
invariant `send_wqe_idx - send_db_idx ≤ wqe_cnt` does not hold at every
reachable protocol state. -/
theorem qp_overflow_state_reachable :
    QpReachable 4 ⟨5, 0, 0⟩ ∧
      ¬((5 : Nat) - 0 ≤ 4) := by
  refine ⟨?_, by omega⟩
  have h1 : QpReachable 4 ⟨1, 0, 0⟩ :=
    QpReachable.step QpReachable.init (QpStep.enqueue _)
  have h2 : QpReachable 4 ⟨2, 0, 0⟩ := QpReachable.step h1 (QpStep.enqueue _)
  have h3 : QpReachable 4 ⟨3, 0, 0⟩ := QpReachable.step h2 (QpStep.enqueue _)
  have h4 : QpReachable 4 ⟨4, 0, 0⟩ := QpReachable.step h3 (QpStep.enqueue _)
  exact QpReachable.step h4 (QpStep.enqueue _)

/-- C7 (amended). At every reachable state of the send path the ordering
invariant `send_wqe_idx ≥ send_db_idx ≥ send_cq_idx` holds; the
difference bound `send_wqe_idx - send_db_idx ≤ wqe_cnt` is re-established
by every successful doorbell ring rather than holding at every state,
and `ring_db_gpu` fails with "Overflow of WQE, possible data loss"
exactly when `send_wqe_idx - send_db_idx > wqe_cnt`. -/
theorem qp_ring_ordering_invariant (wqeCnt : Nat) (s : QpState)
    (h : QpReachable wqeCnt s) :
    (s.sendDbIdx ≤ s.sendWqeIdx ∧ s.sendCqIdx ≤ s.sendDbIdx) ∧
      (∀ s2, ringDbGpu wqeCnt s = .ok s2 →
        s2.sendWqeIdx - s2.sendDbIdx ≤ wqeCnt) ∧
      (ringDbGpu wqeCnt s = .error "Overflow of WQE, possible data loss" ↔
        wqeCnt < s.sendWqeIdx - s.sendDbIdx) := by
  have hord : s.sendDbIdx ≤ s.sendWqeIdx ∧ s.sendCqIdx ≤ s.sendDbIdx := by
    induction h with
    | init => exact ⟨Nat.le_refl 0, Nat.le_refl 0⟩
    | step hs hstep ih =>
      cases hstep with
      | enqueue => simp only [sendWqeGpu]; omega
      | ring a hring =>
        unfold ringDbGpu at hring
        split at hring
        · exact absurd hring (by simp)
        · cases hring
          simp only
          omega
      | pollOk hlt => simp only; omega
  refine ⟨hord, ?_, ?_⟩
  · intro s2 hring
    unfold ringDbGpu at hring
    split at hring
    · exact absurd hring (by simp)
    · cases hring
      simp only
      omega
  · unfold ringDbGpu
    split
    · simpa
    · constructor
      · intro hh
        exact absurd hh (by simp)
      · intro hh
        omega

/-- Witness for C7 (amended) at the initial queue-pair state with
`wqe_cnt = 4`. -/
theorem qp_ring_ordering_invariant_witness :
    QpReachable 4 ⟨0, 0, 0⟩ ∧
      (((⟨0, 0, 0⟩ : QpState).sendDbIdx ≤ (⟨0, 0, 0⟩ : QpState).sendWqeIdx ∧
          (⟨0, 0, 0⟩ : QpState).sendCqIdx ≤ (⟨0, 0, 0⟩ : QpState).sendDbIdx) ∧
        (∀ s2, ringDbGpu 4 ⟨0, 0, 0⟩ = .ok s2 →
          s2.sendWqeIdx - s2.sendDbIdx ≤ 4) ∧
        (ringDbGpu 4 ⟨0, 0, 0⟩ = .error "Overflow of WQE, possible data loss" ↔
          4 < (⟨0, 0, 0⟩ : QpState).sendWqeIdx - (⟨0, 0, 0⟩ : QpState).sendDbIdx)) :=
  ⟨QpReachable.init, qp_ring_ordering_invariant 4 ⟨0, 0, 0⟩ QpReachable.init⟩

/-! ## View range narrowing (view.rs lines 1532-1555) -/

/-- `Range(begin, end_opt, step)` (`crate::Range`, not in the excerpt). -/
structure RangeT where
  start : Nat
  stop : Option Nat
  step : Nat
deriving DecidableEq

/-- Modelled from the spec: `Range::resolve` (in `crate::shape`, not part
of the excerpt). The spec gives `end = end_opt.unwrap_or(n)` and requires
`step ≥ 1`, stipulating that a zero step produces `EmptyRange`; the
zero-step case is encoded by resolving to an empty interval. -/
def RangeT.resolve (r : RangeT) (n : Nat) : Nat × Nat × Nat :=
  if r.step = 0 then (r.start, r.start, r.step)
  else (r.start, r.stop.getD n, r.step)

/-- `ViewError` (view.rs lines 792-814), restricted to the variants the
range path can produce. In `EmptyRange` the source stores
`dim.to_string()` where `dim` has been shadowed by the dimension index,
so the field is the index, not the label. -/
inductive ViewErrorT where
  | invalidDim (dim : List Char)
  | emptyRange (range : RangeT) (dimIdx : Nat) (size : Nat)
  | invalidRange (base selected : Region)
deriving DecidableEq

/-- The two-pointer merge of `Region::is_subset` (view.rs lines
868-889) over the two enumerated rank sequences. -/
def isSubsetMerge : List Nat → List Nat → Bool
  | [], _ => true
  | _ :: _, [] => false
  | l :: ls, r :: rs =>
    if l < r then false
    else if l = r then isSubsetMerge ls rs
    else isSubsetMerge (l :: ls) rs
termination_by structural _ r => r

/-- `Region::is_subset` (view.rs lines 868-889). -/
def Region.isSubset (self other : Region) : Bool :=
  isSubsetMerge self.slice.ranks other.slice.ranks

/-- `View::subset` for `Region` (view.rs lines 1336-1345). -/
def Region.subsetView (self : Region) (region : Region) : Except ViewErrorT Region :=
  if region.isSubset self then .ok region
  else .error (.invalidRange self region)

/-- `ViewExt::range` for a `Region` base (view.rs lines 1532-1555):
resolve the range against the axis size, reject empty ranges, then
narrow offset/size/stride at the chosen axis and delegate to `subset`. -/
def Region.range (self : Region) (dim : List Char) (r : RangeT) :
    Except ViewErrorT Region :=
  match self.labels.findIdx? (fun l => l = dim) with
  | none => .error (.invalidDim dim)
  | some d =>
    let sizes := self.slice.sizes
    let strides := self.slice.strides
    let res := r.resolve (sizes.getD d 0)
    if res.2.1 ≤ res.1 then
      .error (.emptyRange r d (sizes.getD d 0))
    else
      self.subsetView ⟨self.labels,
        ⟨self.slice.offset + strides.getD d 0 * res.1,
         sizes.set d ((res.2.1 - res.1 + res.2.2 - 1) / res.2.2),
         strides.set d (strides.getD d 0 * res.2.2)⟩⟩

/-- Counterexample for C6: on the one-axis region of size 4, the range
`Range(0, Some 17, 1)` has `step ≥ 1` and `end = 17 > begin`, yet the
call does not return a view of size `ceil((17 - 0) / 1) = 17`; the
subset check rejects the oversized slice with `InvalidRange`. -/
theorem range_end_beyond_size_counterexample :
    (1 : Nat) ≠ 0 ∧ (0 : Nat) < 17 ∧
      Region.range ⟨[['x']], ⟨0, [4], [1]⟩⟩ ['x'] ⟨0, some 17, 1⟩ =
        .error (.invalidRange ⟨[['x']], ⟨0, [4], [1]⟩⟩ ⟨[['x']], ⟨0, [17], [1]⟩⟩) := by
  refine ⟨by decide, by decide, ?_⟩
  decide

theorem pairwise_lt_sublist_range :
    ∀ (s : Nat) (l : List Nat), List.Pairwise (· < ·) l → (∀ x ∈ l, x < s) →
      l.Sublist (List.range s) := by
  intro s
  induction s with
  | zero =>
    intro l _ hlt
    cases l with
    | nil => exact List.nil_sublist _
    | cons a tl => exact absurd (hlt a (List.mem_cons_self _ _)) (by omega)
  | succ s ih =>
    intro l hp hlt
    rcases List.eq_nil_or_concat l with rfl | ⟨l2, a, rfl⟩
    · exact List.nil_sublist _
    · simp only [List.concat_eq_append] at hp hlt ⊢
      rw [List.range_succ]
      rw [List.pairwise_append] at hp
      have hlt2 : ∀ x ∈ l2, x < a := fun x hx => hp.2.2 x hx a (by simp)
      by_cases ha : a = s
      · subst ha
        exact List.Sublist.append (ih l2 hp.1 hlt2) (List.Sublist.refl _)
      · have ha2 : a < s := by
          have := hlt a (by simp)
          omega
        have hall : ∀ x ∈ l2 ++ [a], x < s := by
          intro x hx
          rcases List.mem_append.mp hx with h1 | h1
          · have := hlt2 x h1; omega
          · simp at h1; omega
        have := ih (l2 ++ [a]) (List.pairwise_append.mpr hp) hall
        exact this.trans (List.sublist_append_left _ _)

theorem flatMap_sublist_of_sublist {α β : Type} (f : α → List β)
    {l1 l2 : List α} (h : l1.Sublist l2) :
    (l1.flatMap f).Sublist (l2.flatMap f) := by
  induction h with
  | slnil => exact List.Sublist.refl _
  | cons a h ih =>
    rw [List.flatMap_cons]
    exact ih.trans (List.sublist_append_right _ _)
  | cons₂ a h ih =>
    rw [List.flatMap_cons, List.flatMap_cons]
    exact List.Sublist.append (List.Sublist.refl _) ih

theorem flatMap_sublist_pointwise {α β : Type} (f h : α → List β) :
    ∀ (l : List α), (∀ a ∈ l, (f a).Sublist (h a)) →
      (l.flatMap f).Sublist (l.flatMap h) := by
  intro l hl
  induction l with
  | nil => exact List.Sublist.refl _
  | cons a tl ih =>
    rw [List.flatMap_cons, List.flatMap_cons]
    exact List.Sublist.append (hl a (by simp))
      (ih (fun b hb => hl b (List.mem_cons_of_mem _ hb)))

/-- Apply a function to the coordinate at the given axis. -/
def axisMap (g : Nat → Nat) : Nat → List Nat → List Nat
  | _, [] => []
  | 0, c :: cs => g c :: cs
  | d + 1, c :: cs => c :: axisMap g d cs

theorem cartesian_axisMap_sublist (g : Nat → Nat) :
    ∀ (ss : List Nat) (d cnt : Nat), d < ss.length →
      (∀ k, k < cnt → g k < ss.getD d 0) →
      (∀ j k, j < k → k < cnt → g j < g k) →
      ((cartesian (ss.set d cnt)).map (axisMap g d)).Sublist (cartesian ss) := by
  intro ss
  induction ss with
  | nil => intro d cnt hd _ _; simp at hd
  | cons s rest ih =>
    intro d cnt hd hbound hmono
    cases d with
    | zero =>
      simp only [List.set_cons_zero, cartesian]
      rw [List.map_flatMap]
      have heq : (fun c : Nat => ((cartesian rest).map (c :: ·)).map (axisMap g 0)) =
          (fun c : Nat => (cartesian rest).map (g c :: ·)) := by
        funext c
        rw [List.map_map]
        exact List.map_congr_left (fun x _ => rfl)
      rw [heq]
      have hsub : ((List.range cnt).map g).Sublist (List.range s) := by
        apply pairwise_lt_sublist_range
        · rw [List.pairwise_map]
          exact (List.pairwise_lt_range cnt).imp_of_mem
            (fun {a b} _ hb hab => hmono a b hab (List.mem_range.mp hb))
        · intro x hx
          obtain ⟨k, hk, rfl⟩ := List.mem_map.mp hx
          simpa using hbound k (List.mem_range.mp hk)
      have := flatMap_sublist_of_sublist
        (fun v => (cartesian rest).map (v :: ·)) hsub
      rw [List.flatMap_map] at this
      exact this
    | succ d =>
      have hd2 : d < rest.length := by simpa using hd
      simp only [List.set_cons_succ, cartesian]
      rw [List.map_flatMap]
      have heq : (fun c : Nat => ((cartesian (rest.set d cnt)).map (c :: ·)).map (axisMap g (d + 1))) =
          (fun c : Nat => ((cartesian (rest.set d cnt)).map (axisMap g d)).map (c :: ·)) := by
        funext c
        rw [List.map_map, List.map_map]
        exact List.map_congr_left (fun x _ => rfl)
      rw [heq]
      apply flatMap_sublist_pointwise
      intro a _
      exact (ih d cnt hd2 (by simpa using hbound) hmono).map (a :: ·)

theorem dot_axisMap (b step : Nat) :
    ∀ (d : Nat) (c strides : List Nat), d < c.length → c.length = strides.length →
      dot (axisMap (fun k => b + k * step) d c) strides =
        strides.getD d 0 * b + dot c (strides.set d (strides.getD d 0 * step)) := by
  intro d
  induction d with
  | zero =>
    intro c strides hd hlen
    cases c with
    | nil => simp at hd
    | cons c0 cs =>
      cases strides with
      | nil => simp at hlen
      | cons s0 sts =>
        simp only [axisMap, dot, List.getD_cons_zero, List.set_cons_zero]
        ring
  | succ d ihd =>
    intro c strides hd hlen
    cases c with
    | nil => simp at hd
    | cons c0 cs =>
      cases strides with
      | nil => simp at hlen
      | cons s0 sts =>
        simp only [axisMap, dot, List.getD_cons_succ, List.set_cons_succ]
        rw [ihd cs sts (by simpa using hd) (by simpa using hlen)]
        ring

theorem isSubsetMerge_of_sublist :
    ∀ (r l : List Nat), l.Sublist r → List.Pairwise (· < ·) r →
      isSubsetMerge l r = true := by
  intro r
  induction r with
  | nil =>
    intro l hl _
    rw [List.sublist_nil.mp hl]
    rfl
  | cons y rs ih =>
    intro l hl hp
    cases l with
    | nil => rfl
    | cons x ls =>
      cases hl with
      | cons _ h2 =>
        have hx : x ∈ rs := List.Sublist.subset h2 (List.mem_cons_self _ _)
        have hyx : y < x := (List.pairwise_cons.mp hp).1 x hx
        have hrec := ih (x :: ls) h2 (List.pairwise_cons.mp hp).2
        simp only [isSubsetMerge]
        rw [if_neg (by omega : ¬x < y), if_neg (by omega : ¬x = y)]
        exact hrec
      | cons₂ _ h2 =>
        have hrec := ih ls h2 (List.pairwise_cons.mp hp).2
        simp [isSubsetMerge, hrec]

theorem rangeStep_bound {b e step k : Nat} (hbe : b < e)
    (hk : k < (e - b + step - 1) / step) : b + k * step < e := by
  have h1 : (k + 1) * step ≤ ((e - b + step - 1) / step) * step :=
    Nat.mul_le_mul_right step hk
  have h2 : ((e - b + step - 1) / step) * step ≤ e - b + step - 1 :=
    Nat.div_mul_le_self _ _
  have h3 : (k + 1) * step = k * step + step := by ring
  have h4 : 1 ≤ step := by
    by_contra hc
    have : step = 0 := by omega
    rw [this] at hk
    simp at hk
  omega

/-- C6 (amended). With `end = end_opt.unwrap_or(n)` (the spec's
resolution of the missing `Range::resolve`), `range(dim, r)` on a region
whose enumerated ranks are strictly increasing fails with `EmptyRange`
when the step is 0 or `end ≤ begin`; otherwise, provided additionally
`end ≤ n`, it returns the region whose size along `dim` is
`ceil((end - begin) / step)`, whose stride along `dim` is the old stride
times `step`, and whose offset is advanced by `begin ·  old_stride`.
(Without `end ≤ n` the conclusion can fail: in the counterexample above,
`end = 17` on a 4-rank axis makes the subset check reject the call with
`InvalidRange` rather than return the size-17 view the original claim
promises.) -/
theorem range_resolution (base : Region) (dim : List Char) (r : RangeT) (d : Nat)
    (hfind : base.labels.findIdx? (fun l => l = dim) = some d)
    (hdlt : d < base.slice.sizes.length)
    (hstr : base.slice.strides.length = base.slice.sizes.length)
    (hsorted : List.Pairwise (· < ·) base.slice.ranks) :
    ((r.step = 0 ∨ r.stop.getD (base.slice.sizes.getD d 0) ≤ r.start) →
      base.range dim r = .error (.emptyRange r d (base.slice.sizes.getD d 0))) ∧
    (r.step ≠ 0 → r.start < r.stop.getD (base.slice.sizes.getD d 0) →
      r.stop.getD (base.slice.sizes.getD d 0) ≤ base.slice.sizes.getD d 0 →
      base.range dim r = .ok ⟨base.labels,
        ⟨base.slice.offset + base.slice.strides.getD d 0 * r.start,
         base.slice.sizes.set d
           ((r.stop.getD (base.slice.sizes.getD d 0) - r.start + r.step - 1) / r.step),
         base.slice.strides.set d (base.slice.strides.getD d 0 * r.step)⟩⟩) := by
  constructor
  · intro h
    by_cases h0 : r.step = 0
    · simp [Region.range, hfind, RangeT.resolve, h0]
    · have hle : r.stop.getD (base.slice.sizes.getD d 0) ≤ r.start := by
        rcases h with h0c | hle
        · exact absurd h0c h0
        · exact hle
      have hle2 : r.stop.getD (base.slice.sizes[d]?.getD 0) ≤ r.start := by
        rw [← List.getD_eq_getElem?_getD]
        exact hle
      simp [Region.range, hfind, RangeT.resolve, h0, hle2]
  · intro h0 hbe hen
    have hnotle : ¬(r.stop.getD (base.slice.sizes.getD d 0) ≤ r.start) := by omega
    -- abbreviations
    have hstep1 : 1 ≤ r.step := Nat.one_le_iff_ne_zero.mpr h0
    -- the narrowed slice
    have hsub : ((cartesian (base.slice.sizes.set d
          ((r.stop.getD (base.slice.sizes.getD d 0) - r.start + r.step - 1) / r.step))).map
        (axisMap (fun k => r.start + k * r.step) d)).Sublist
        (cartesian base.slice.sizes) := by
      apply cartesian_axisMap_sublist
      · exact hdlt
      · intro k hk
        have := rangeStep_bound hbe hk
        omega
      · intro j k hjk _
        have := Nat.mul_lt_mul_of_pos_right hjk (show 0 < r.step by omega)
        omega
    have hranks : (Slice.ranks ⟨base.slice.offset + base.slice.strides.getD d 0 * r.start,
          base.slice.sizes.set d
            ((r.stop.getD (base.slice.sizes.getD d 0) - r.start + r.step - 1) / r.step),
          base.slice.strides.set d (base.slice.strides.getD d 0 * r.step)⟩).Sublist
        base.slice.ranks := by
      unfold Slice.ranks
      simp only
      have heq : ((cartesian (base.slice.sizes.set d
            ((r.stop.getD (base.slice.sizes.getD d 0) - r.start + r.step - 1) / r.step))).map
          (fun c => base.slice.offset + base.slice.strides.getD d 0 * r.start +
            dot c (base.slice.strides.set d (base.slice.strides.getD d 0 * r.step)))) =
          (((cartesian (base.slice.sizes.set d
            ((r.stop.getD (base.slice.sizes.getD d 0) - r.start + r.step - 1) / r.step))).map
          (axisMap (fun k => r.start + k * r.step) d)).map
            (fun c => base.slice.offset + dot c base.slice.strides)) := by
        rw [List.map_map]
        apply List.map_congr_left
        intro c hc
        have hclen : c.length = base.slice.sizes.length := by
          have := (mem_cartesian.mp hc).length_eq
          simpa using this
        have hdc : d < c.length := by omega
        have hcs : c.length = base.slice.strides.length := by omega
        simp only [Function.comp_apply]
        rw [dot_axisMap r.start r.step d c base.slice.strides hdc hcs]
        ring
      rw [heq]
      exact hsub.map _
    have hmerge := isSubsetMerge_of_sublist base.slice.ranks _ hranks hsorted
    have hnotle2 : ¬(r.stop.getD (base.slice.sizes[d]?.getD 0) ≤ r.start) := by
      rw [← List.getD_eq_getElem?_getD]
      exact hnotle
    have hmerge2 : isSubsetMerge
        (Slice.ranks ⟨base.slice.offset + base.slice.strides[d]?.getD 0 * r.start,
          base.slice.sizes.set d
            ((r.stop.getD (base.slice.sizes[d]?.getD 0) - r.start + r.step - 1) / r.step),
          base.slice.strides.set d (base.slice.strides[d]?.getD 0 * r.step)⟩)
        base.slice.ranks = true := by
      simp only [← List.getD_eq_getElem?_getD]
      exact hmerge
    simp [Region.range, hfind, RangeT.resolve, h0, hnotle2, Region.subsetView,
      Region.isSubset, hmerge2]

/-- Witness for C6 (amended): on the region {x: 4, y: 3} (row-major),
`range("y", Range(1, None, 2))` yields size ceil((3-1)/2) = 1 along y,
stride 1·2 = 2, and offset 0 + 1·1 = 1. -/
theorem range_resolution_witness :
    Region.range ⟨[['x'], ['y']], ⟨0, [4, 3], [3, 1]⟩⟩ ['y'] ⟨1, none, 2⟩ =
      .ok ⟨[['x'], ['y']], ⟨1, [4, 1], [3, 2]⟩⟩ :=
  (range_resolution ⟨[['x'], ['y']], ⟨0, [4, 3], [3, 1]⟩⟩ ['y'] ⟨1, none, 2⟩ 1
    (by decide) (by decide) (by decide) (by decide)).2 (by decide) (by decide) (by decide)

/-! ## Region textual form (view.rs lines 985-1076) -/

/-- `labels::is_safe_ident` (view.rs lines 330-332): ASCII alphanumeric
or underscore. -/
def isSafeIdent (l : List Char) : Bool :=
  l.all (fun c => c.isAlphanum || c == '_')

/-- Modelled from the spec's `Quoted` grammar: the Rust code renders
non-safe labels with the stdlib's `{:?}` Debug formatting (outside the
excerpt); the grammar escapes `"` and `\` with a backslash. -/
def escapeChar (c : Char) : List Char :=
  if c = '"' ∨ c = '\\' then ['\\', c] else [c]

/-- Quote a label as a string literal. -/
def quoteLabel (l : List Char) : List Char :=
  '"' :: (l.flatMap escapeChar ++ ['"'])

/-- `labels::fmt_label` (view.rs lines 338-344). -/
def fmtLabel (l : List Char) : List Char :=
  if isSafeIdent l then l else quoteLabel l

/-- Decimal digits of a natural number, most significant first
(`write!("{}", n)`), fuel-based so it computes by reduction. -/
def natCharsGo : Nat → Nat → List Char → List Char
  | 0, _, acc => acc
  | fuel + 1, n, acc =>
    let d := Char.ofNat (n % 10 + 48)
    if n < 10 then d :: acc else natCharsGo fuel (n / 10) (d :: acc)

def natChars (n : Nat) : List Char := natCharsGo (n + 1) n []

def digitVal (c : Char) : Nat := c.toNat - 48

def digitsValFrom (a : Nat) (l : List Char) : Nat :=
  l.foldl (fun x c => x * 10 + digitVal c) a

/-- The delimiter set of the region parser
(`Parser::new(s, &["+", "=", ",", "/"])`, view.rs line 1039). -/
def isDelim (c : Char) : Bool :=
  c == '+' || c == '=' || c == ',' || c == '/'

/-- Modelled from the spec: the parser's tokenizer (`crate::parse`, not
in the excerpt) yields a single delimiter character or a maximal run of
non-delimiter characters. -/
def nextToken : List Char → Option (List Char × List Char)
  | [] => none
  | c :: cs =>
    if isDelim c then some ([c], cs)
    else some ((c :: cs).takeWhile (fun x => !isDelim x),
      (c :: cs).dropWhile (fun x => !isDelim x))

/-- Parse failures; the source's `RegionParseError` payloads are opaque
here. -/
inductive ParseErr where
  | parser
deriving DecidableEq

/-- `parser.expect(tok)`: the next token must be the given delimiter. -/
def expectTokE (d : Char) (cs : List Char) : Except ParseErr (List Char) :=
  match nextToken cs with
  | some (t, rest) => if t = [d] then .ok rest else .error .parser
  | none => .error .parser

/-- Modelled from the spec: `parser.try_parse::<usize>()` succeeds on a
nonempty all-digit next token, consuming it; otherwise it fails without
consuming. -/
def tryParseNat (cs : List Char) : Option (Nat × List Char) :=
  match nextToken cs with
  | some (t, rest) =>
    if t ≠ [] ∧ t.all Char.isDigit then some (digitsValFrom 0 t, rest) else none
  | none => none

/-- Modelled from the spec: the body scan of
`parser.parse_string_literal()` after the opening quote, inverting the
`Quoted` grammar. -/
def scanStringLit : List Char → Option (List Char × List Char)
  | [] => none
  | c :: rest =>
    if c = '"' then some ([], rest)
    else if c = '\\' then
      match rest with
      | [] => none
      | c2 :: rest2 => (scanStringLit rest2).map (fun p => (c2 :: p.1, p.2))
    else (scanStringLit rest).map (fun p => (c :: p.1, p.2))

def parseStringLit (cs : List Char) : Except ParseErr (List Char × List Char) :=
  match cs with
  | '"' :: rest =>
    match scanStringLit rest with
    | some p => .ok p
    | none => .error .parser
  | _ => .error .parser

/-- One iteration of the `from_str` pair loop (view.rs lines 1052-1069),
after the optional comma: label (quoted or bare token), `=`, size, `/`,
stride. -/
def parseOnePair (cs1 : List Char) :
    Except ParseErr ((List Char × Nat × Nat) × List Char) := do
  let lp ←
    if cs1.head? = some '"' then parseStringLit cs1
    else match nextToken cs1 with
      | some p => Except.ok p
      | none => Except.error ParseErr.parser
  let cs3 ← expectTokE '=' lp.2
  let sp ←
    match tryParseNat cs3 with
    | some p => Except.ok p
    | none => Except.error ParseErr.parser
  let cs5 ← expectTokE '/' sp.2
  let tp ←
    match tryParseNat cs5 with
    | some p => Except.ok p
    | none => Except.error ParseErr.parser
  .ok ((lp.1, sp.1, tp.1), tp.2)

/-- The `while !parser.is_empty()` loop of `from_str` (view.rs lines
1052-1069), fuel-based (the Rust loop terminates because every
iteration consumes input). -/
def parsePairs : Nat → List Char → Bool → Except ParseErr (List (List Char × Nat × Nat))
  | 0, _, _ => .error .parser
  | fuel + 1, cs, first =>
    if cs.isEmpty then .ok []
    else do
      let cs1 ← if first then pure cs else expectTokE ',' cs
      let pr ← parseOnePair cs1
      let rest ← parsePairs fuel pr.2 false
      .ok (pr.1 :: rest)

/-- Assemble the parsed region (`Slice::new` is modelled from the spec
as the plain record constructor). -/
def mkRegion (offset : Nat) (ts : List (List Char × Nat × Nat)) : Region :=
  ⟨ts.map (·.1), ⟨offset, ts.map (·.2.1), ts.map (·.2.2)⟩⟩

/-- `Region::from_str` (view.rs lines 1038-1076): optionally parse a
leading `offset '+'` (propagating a failed `expect("+")` after a
successful numeric parse), then the pair loop. -/
def regionFromChars (s : List Char) : Except ParseErr Region :=
  match tryParseNat s with
  | some p =>
    match expectTokE '+' p.2 with
    | .ok rest => (parsePairs (s.length + 1) rest true).map (mkRegion p.1)
    | .error e => .error e
  | none => (parsePairs (s.length + 1) s true).map (mkRegion 0)

/-- One `label=size/stride` component of `Region::fmt` (view.rs lines
990-1001). -/
def displayPair (t : List Char × Nat × Nat) : List Char :=
  fmtLabel t.1 ++ '=' :: (natChars t.2.1 ++ '/' :: natChars t.2.2)

/-- The comma-joined components after the first. -/
def displayTail : List (List Char × Nat × Nat) → List Char
  | [] => []
  | t :: ts => ',' :: (displayPair t ++ displayTail ts)

def displayPairs : List (List Char × Nat × Nat) → List Char
  | [] => []
  | t :: ts => displayPair t ++ displayTail ts

/-- `Region::fmt` (view.rs lines 985-1004): optional `offset+` prefix
when the offset is nonzero, then the comma-separated components. -/
def Region.display (r : Region) : List Char :=
  (if r.slice.offset ≠ 0 then natChars r.slice.offset ++ ['+'] else []) ++
    displayPairs (r.labels.zip (r.slice.sizes.zip r.slice.strides))

/-- Counterexample for C3: the region with the single all-digit label
"0" (offset 0, size 1, stride 1) prints as `0=1/1`, but parsing first
reads `0` as a candidate offset and then fails on the mandatory `+`, so
the round trip does not return the region. -/
theorem region_roundtrip_counterexample :
    Region.display ⟨[['0']], ⟨0, [1], [1]⟩⟩ = ['0', '=', '1', '/', '1'] ∧
      regionFromChars (Region.display ⟨[['0']], ⟨0, [1], [1]⟩⟩) =
        .error .parser := by
  refine ⟨by decide, by decide⟩

theorem digitCharFacts (m : Nat) (h : m < 10) :
    (Char.ofNat (m + 48)).isDigit = true ∧ digitVal (Char.ofNat (m + 48)) = m ∧
      isDelim (Char.ofNat (m + 48)) = false := by
  interval_cases m <;> exact ⟨by decide, by decide, by decide⟩

theorem digit_not_delim {c : Char} (h : c.isDigit = true) : isDelim c = false := by
  cases hdm : isDelim c
  · rfl
  · exfalso
    simp only [isDelim, Bool.or_eq_true, beq_iff_eq] at hdm
    rcases hdm with ((h1 | h1) | h1) | h1 <;> subst h1 <;> exact absurd h (by decide)

theorem safe_not_delim {c : Char} (h : (c.isAlphanum || c == '_') = true) :
    isDelim c = false := by
  cases hdm : isDelim c
  · rfl
  · exfalso
    simp only [isDelim, Bool.or_eq_true, beq_iff_eq] at hdm
    rcases hdm with ((h1 | h1) | h1) | h1 <;> subst h1 <;> exact absurd h (by decide)

theorem safe_ne_quote {c : Char} (h : (c.isAlphanum || c == '_') = true) :
    c ≠ '"' := by
  intro hc
  subst hc
  exact absurd h (by decide)

theorem natCharsGo_props :
    ∀ (fuel n : Nat) (acc : List Char), n < 10 ^ (fuel + 1) →
      ∃ ds, natCharsGo (fuel + 1) n acc = ds ++ acc ∧ ds ≠ [] ∧
        (∀ c ∈ ds, c.isDigit = true) ∧
        ∀ a, digitsValFrom a ds = a * 10 ^ ds.length + n := by
  intro fuel
  induction fuel with
  | zero =>
    intro n acc h
    have hn : n < 10 := by simpa using h
    refine ⟨[Char.ofNat (n % 10 + 48)], by simp [natCharsGo, hn], by simp, ?_, ?_⟩
    · intro c hc
      simp only [List.mem_singleton] at hc
      subst hc
      exact (digitCharFacts (n % 10) (by omega)).1
    · intro a
      simp only [digitsValFrom, List.foldl_cons, List.foldl_nil, List.length_singleton,
        pow_one]
      rw [(digitCharFacts (n % 10) (by omega)).2.1]
      omega
  | succ fuel ih =>
    intro n acc h
    by_cases hn : n < 10
    · refine ⟨[Char.ofNat (n % 10 + 48)], by simp [natCharsGo, hn], by simp, ?_, ?_⟩
      · intro c hc
        simp only [List.mem_singleton] at hc
        subst hc
        exact (digitCharFacts (n % 10) (by omega)).1
      · intro a
        simp only [digitsValFrom, List.foldl_cons, List.foldl_nil, List.length_singleton,
          pow_one]
        rw [(digitCharFacts (n % 10) (by omega)).2.1]
        omega
    · have h2 : n / 10 < 10 ^ (fuel + 1) := by
        rw [Nat.div_lt_iff_lt_mul (by omega : (0 : Nat) < 10)]
        calc n < 10 ^ (fuel + 1 + 1) := h
          _ = 10 ^ (fuel + 1) * 10 := by ring
      obtain ⟨ds, heq, hdne, hdig, hval⟩ := ih (n / 10) (Char.ofNat (n % 10 + 48) :: acc) h2
      refine ⟨ds ++ [Char.ofNat (n % 10 + 48)], ?_, by simp, ?_, ?_⟩
      · have hunf : natCharsGo (fuel + 1 + 1) n acc =
            natCharsGo (fuel + 1) (n / 10) (Char.ofNat (n % 10 + 48) :: acc) := by
          rw [natCharsGo]
          simp only [if_neg hn]
        rw [hunf, heq]
        simp
      · intro c hc
        rcases List.mem_append.mp hc with h1 | h1
        · exact hdig c h1
        · simp only [List.mem_singleton] at h1
          subst h1
          exact (digitCharFacts (n % 10) (by omega)).1
      · intro a
        unfold digitsValFrom
        rw [List.foldl_append]
        have hstep := hval a
        unfold digitsValFrom at hstep
        rw [hstep]
        simp only [List.foldl_cons, List.foldl_nil, List.length_append,
          List.length_singleton]
        rw [(digitCharFacts (n % 10) (by omega)).2.1]
        have hpow : 10 ^ (ds.length + 1) = 10 ^ ds.length * 10 := by ring
        rw [hpow]
        have hdm : n / 10 * 10 + n % 10 = n := by omega
        have : (a * 10 ^ ds.length + n / 10) * 10 + n % 10 =
            a * (10 ^ ds.length * 10) + (n / 10 * 10 + n % 10) := by ring
        rw [this, hdm]

theorem natChars_props (n : Nat) :
    natChars n ≠ [] ∧ (∀ c ∈ natChars n, c.isDigit = true) ∧
      digitsValFrom 0 (natChars n) = n := by
  have hlt : n < 10 ^ (n + 1) := by
    calc n < 10 ^ n := Nat.lt_pow_self (by omega) n
      _ ≤ 10 ^ (n + 1) := Nat.pow_le_pow_right (by omega) (by omega)
  obtain ⟨ds, heq, hdne, hdig, hval⟩ := natCharsGo_props n n [] hlt
  have hds : natChars n = ds := by
    unfold natChars
    rw [heq, List.append_nil]
  rw [hds]
  refine ⟨hdne, hdig, ?_⟩
  rw [hval 0]
  omega

theorem takeWhile_run (p : Char → Bool) :
    ∀ (ds : List Char), (∀ c ∈ ds, p c = true) → ∀ (e : Char), p e = false →
      ∀ (rest : List Char),
      (ds ++ e :: rest).takeWhile p = ds ∧ (ds ++ e :: rest).dropWhile p = e :: rest := by
  intro ds
  induction ds with
  | nil =>
    intro _ e he rest
    simp [List.takeWhile_cons, List.dropWhile_cons, he]
  | cons d tl ih =>
    intro h e he rest
    have hd : p d = true := h d (List.mem_cons_self d tl)
    have htl := ih (fun c hc => h c (List.mem_cons_of_mem d hc)) e he rest
    simp [List.takeWhile_cons, List.dropWhile_cons, hd, htl.1, htl.2]

theorem takeWhile_all_pass (p : Char → Bool) :
    ∀ (ds : List Char), (∀ c ∈ ds, p c = true) →
      ds.takeWhile p = ds ∧ ds.dropWhile p = [] := by
  intro ds
  induction ds with
  | nil => intro _; simp
  | cons d tl ih =>
    intro h
    have hd : p d = true := h d (List.mem_cons_self d tl)
    have htl := ih (fun c hc => h c (List.mem_cons_of_mem d hc))
    simp [List.takeWhile_cons, List.dropWhile_cons, hd, htl.1, htl.2]

theorem nextToken_run (ds : List Char) (hne : ds ≠ [])
    (hds : ∀ c ∈ ds, isDelim c = false) (e : Char) (he : isDelim e = true)
    (rest : List Char) :
    nextToken (ds ++ e :: rest) = some (ds, e :: rest) := by
  cases ds with
  | nil => exact absurd rfl hne
  | cons c cs =>
    have hc : isDelim c = false := hds c (List.mem_cons_self c cs)
    have hall : ∀ x ∈ c :: cs, (fun x => !isDelim x) x = true := by
      intro x hx
      simp [hds x hx]
    have htw := takeWhile_run (fun x => !isDelim x) (c :: cs) hall e (by simp [he]) rest
    simp only [List.cons_append] at htw ⊢
    simp only [nextToken]
    rw [if_neg (by simp [hc])]
    rw [htw.1, htw.2]

theorem nextToken_run_end (ds : List Char) (hne : ds ≠ [])
    (hds : ∀ c ∈ ds, isDelim c = false) :
    nextToken ds = some (ds, []) := by
  cases ds with
  | nil => exact absurd rfl hne
  | cons c cs =>
    have hc : isDelim c = false := hds c (List.mem_cons_self c cs)
    have hall : ∀ x ∈ c :: cs, (fun x => !isDelim x) x = true := by
      intro x hx
      simp [hds x hx]
    have htw := takeWhile_all_pass (fun x => !isDelim x) (c :: cs) hall
    simp only [nextToken]
    rw [if_neg (by simp [hc])]
    rw [htw.1, htw.2]

theorem nextToken_delim (e : Char) (he : isDelim e = true) (rest : List Char) :
    nextToken (e :: rest) = some ([e], rest) := by
  simp [nextToken, he]

theorem expectTok_delim (d : Char) (hd : isDelim d = true) (rest : List Char) :
    expectTokE d (d :: rest) = .ok rest := by
  simp [expectTokE, nextToken_delim d hd rest]

theorem tryParseNat_digits (ds : List Char) (hne : ds ≠ [])
    (hdig : ∀ c ∈ ds, c.isDigit = true) (e : Char) (he : isDelim e = true)
    (rest : List Char) :
    tryParseNat (ds ++ e :: rest) = some (digitsValFrom 0 ds, e :: rest) := by
  have hnd : ∀ c ∈ ds, isDelim c = false := fun c hc => digit_not_delim (hdig c hc)
  have hall : ds.all Char.isDigit = true := List.all_eq_true.mpr (by
    intro x hx
    simpa using hdig x hx)
  unfold tryParseNat
  rw [nextToken_run ds hne hnd e he rest]
  show (if ds ≠ [] ∧ ds.all Char.isDigit = true
      then some (digitsValFrom 0 ds, e :: rest) else none) =
    some (digitsValFrom 0 ds, e :: rest)
  rw [if_pos ⟨hne, hall⟩]

theorem tryParseNat_digits_end (ds : List Char) (hne : ds ≠ [])
    (hdig : ∀ c ∈ ds, c.isDigit = true) :
    tryParseNat ds = some (digitsValFrom 0 ds, []) := by
  have hnd : ∀ c ∈ ds, isDelim c = false := fun c hc => digit_not_delim (hdig c hc)
  have hall : ds.all Char.isDigit = true := List.all_eq_true.mpr (by
    intro x hx
    simpa using hdig x hx)
  unfold tryParseNat
  rw [nextToken_run_end ds hne hnd]
  show (if ds ≠ [] ∧ ds.all Char.isDigit = true
      then some (digitsValFrom 0 ds, []) else none) =
    some (digitsValFrom 0 ds, [])
  rw [if_pos ⟨hne, hall⟩]

theorem tryParseNat_run_not_digits (ds : List Char) (hne : ds ≠ [])
    (hds : ∀ c ∈ ds, isDelim c = false) (hnd : ds.all Char.isDigit = false)
    (e : Char) (he : isDelim e = true) (rest : List Char) :
    tryParseNat (ds ++ e :: rest) = none := by
  unfold tryParseNat
  rw [nextToken_run ds hne hds e he rest]
  show (if ds ≠ [] ∧ ds.all Char.isDigit = true
      then some (digitsValFrom 0 ds, e :: rest) else none) = none
  rw [if_neg]
  intro hco
  rw [hco.2] at hnd
  exact Bool.noConfusion hnd

theorem tryParseNat_quote (X : List Char) : tryParseNat ('"' :: X) = none := by
  have hq : isDelim '"' = false := by decide
  have h1 : nextToken ('"' :: X) =
      some ('"' :: X.takeWhile (fun x => !isDelim x),
        X.dropWhile (fun x => !isDelim x)) := by
    simp [nextToken, hq, List.takeWhile_cons, List.dropWhile_cons]
  unfold tryParseNat
  rw [h1]
  show (if ('"' :: X.takeWhile (fun x => !isDelim x)) ≠ [] ∧
        ('"' :: X.takeWhile (fun x => !isDelim x)).all Char.isDigit = true
      then some (digitsValFrom 0 ('"' :: X.takeWhile (fun x => !isDelim x)),
        X.dropWhile (fun x => !isDelim x))
      else none) = none
  rw [if_neg]
  intro hco
  have h2 := hco.2
  simp [List.all_cons, (by decide : Char.isDigit '"' = false)] at h2

theorem scanStringLit_roundtrip :
    ∀ (l : List Char) (rest : List Char),
      scanStringLit (l.flatMap escapeChar ++ '"' :: rest) = some (l, rest) := by
  intro l
  induction l with
  | nil =>
    intro rest
    simp only [List.flatMap_nil, List.nil_append]
    rw [scanStringLit.eq_def]
    simp
  | cons c tl ih =>
    intro rest
    by_cases hc : c = '"' ∨ c = '\\'
    · have hesc : escapeChar c = ['\\', c] := by
        unfold escapeChar
        rw [if_pos hc]
      have hsh : (c :: tl).flatMap escapeChar ++ '"' :: rest =
          '\\' :: c :: (tl.flatMap escapeChar ++ '"' :: rest) := by
        simp [List.flatMap_cons, hesc]
      rw [hsh]
      show Option.map (fun p => (c :: p.1, p.2))
        (scanStringLit (tl.flatMap escapeChar ++ '"' :: rest)) = some (c :: tl, rest)
      rw [ih rest]
      rfl
    · push_neg at hc
      have hesc : escapeChar c = [c] := by
        unfold escapeChar
        rw [if_neg (by tauto)]
      have hsh : (c :: tl).flatMap escapeChar ++ '"' :: rest =
          c :: (tl.flatMap escapeChar ++ '"' :: rest) := by
        simp [List.flatMap_cons, hesc]
      rw [hsh]
      rw [scanStringLit.eq_def]
      simp only [hc.1, hc.2, if_false]
      rw [ih rest]
      rfl

theorem parseStringLit_quote (l R : List Char) :
    parseStringLit ('"' :: (l.flatMap escapeChar ++ '"' :: R)) = .ok (l, R) := by
  show (match scanStringLit (l.flatMap escapeChar ++ '"' :: R) with
      | some p => Except.ok p
      | none => Except.error ParseErr.parser) = Except.ok (l, R)
  rw [scanStringLit_roundtrip l R]

theorem parseOnePair_display (t : List Char × Nat × Nat) (suffix : List Char)
    (hlab : t.1 ≠ [])
    (hsuf : suffix = [] ∨ ∃ s2, suffix = ',' :: s2) :
    parseOnePair (displayPair t ++ suffix) = .ok (t, suffix) := by
  obtain ⟨l, sz, st⟩ := t
  simp only at hlab
  have hshape : displayPair (l, sz, st) ++ suffix =
      fmtLabel l ++ '=' :: (natChars sz ++ '/' :: (natChars st ++ suffix)) := by
    simp [displayPair, List.append_assoc]
  have h3 : tryParseNat (natChars sz ++ '/' :: (natChars st ++ suffix)) =
      some (sz, '/' :: (natChars st ++ suffix)) := by
    have hp := natChars_props sz
    have := tryParseNat_digits (natChars sz) hp.1 hp.2.1 '/' (by decide)
      (natChars st ++ suffix)
    rwa [hp.2.2] at this
  have h5 : tryParseNat (natChars st ++ suffix) = some (st, suffix) := by
    rcases hsuf with rfl | ⟨s2, rfl⟩
    · rw [List.append_nil]
      have hp := natChars_props st
      have := tryParseNat_digits_end (natChars st) hp.1 hp.2.1
      rwa [hp.2.2] at this
    · have hp := natChars_props st
      have := tryParseNat_digits (natChars st) hp.1 hp.2.1 ',' (by decide) s2
      rwa [hp.2.2] at this
  rw [hshape]
  by_cases hsafe : isSafeIdent l = true
  · have hfl : fmtLabel l = l := by
      unfold fmtLabel
      rw [if_pos hsafe]
    rw [hfl]
    cases l with
    | nil => exact absurd rfl hlab
    | cons c cs =>
      have hcsafe : (c.isAlphanum || c == '_') = true := by
        have := List.all_eq_true.mp hsafe c (List.mem_cons_self c cs)
        simpa using this
      have hnt : nextToken ((c :: cs) ++
          '=' :: (natChars sz ++ '/' :: (natChars st ++ suffix))) =
          some (c :: cs, '=' :: (natChars sz ++ '/' :: (natChars st ++ suffix))) := by
        apply nextToken_run (c :: cs) (by simp) _ '=' (by decide)
        intro x hx
        have := List.all_eq_true.mp hsafe x hx
        exact safe_not_delim (by simpa using this)
      unfold parseOnePair
      simp only [List.cons_append, List.head?_cons] at hnt ⊢
      rw [if_neg (by
        intro hh
        exact safe_ne_quote hcsafe (Option.some.inj hh))]
      rw [hnt]
      simp only [except_bind_ok,
        expectTok_delim '=' (by decide) (natChars sz ++ '/' :: (natChars st ++ suffix)),
        h3, expectTok_delim '/' (by decide) (natChars st ++ suffix), h5]
  · have hfl : fmtLabel l = '"' :: (l.flatMap escapeChar ++ ['"']) := by
      unfold fmtLabel quoteLabel
      rw [if_neg hsafe]
    rw [hfl]
    have hql : ('"' :: (l.flatMap escapeChar ++ ['"'])) ++
        '=' :: (natChars sz ++ '/' :: (natChars st ++ suffix)) =
        '"' :: (l.flatMap escapeChar ++
          '"' :: ('=' :: (natChars sz ++ '/' :: (natChars st ++ suffix)))) := by
      simp [List.append_assoc]
    rw [hql]
    have hps := parseStringLit_quote l
      ('=' :: (natChars sz ++ '/' :: (natChars st ++ suffix)))
    unfold parseOnePair
    rw [if_pos (show List.head? ('"' :: (l.flatMap escapeChar ++
      '"' :: ('=' :: (natChars sz ++ '/' :: (natChars st ++ suffix))))) =
        some '"' from rfl)]
    rw [hps]
    simp only [except_bind_ok,
      expectTok_delim '=' (by decide) (natChars sz ++ '/' :: (natChars st ++ suffix)),
      h3, expectTok_delim '/' (by decide) (natChars st ++ suffix), h5]

theorem displayPair_ne_nil (t : List Char × Nat × Nat) : displayPair t ≠ [] := by
  obtain ⟨l, sz, st⟩ := t
  unfold displayPair
  intro h
  rcases List.append_eq_nil.mp h with ⟨_, h2⟩
  exact List.cons_ne_nil _ _ h2

theorem except_pure_bind {e a b : Type} (x : a) (f : a → Except e b) :
    ((pure x : Except e a) >>= f) = f x := rfl

theorem parsePairs_ok :
    ∀ (ts : List (List Char × Nat × Nat)) (fuel : Nat), ts.length < fuel →
      (∀ t ∈ ts, t.1 ≠ []) →
      parsePairs fuel (displayTail ts) false = .ok ts ∧
        parsePairs fuel (displayPairs ts) true = .ok ts := by
  intro ts
  induction ts with
  | nil =>
    intro fuel hf _
    obtain ⟨f, rfl⟩ : ∃ f, fuel = f + 1 := ⟨fuel - 1, by omega⟩
    constructor
    · show parsePairs (f + 1) [] false = .ok []
      simp [parsePairs]
    · show parsePairs (f + 1) [] true = .ok []
      simp [parsePairs]
  | cons t ts ih =>
    intro fuel hf hwf
    obtain ⟨f, rfl⟩ : ∃ f, fuel = f + 1 := ⟨fuel - 1, by omega⟩
    have hwf_t : t.1 ≠ [] := hwf t (List.mem_cons_self t ts)
    have hwf2 : ∀ x ∈ ts, x.1 ≠ [] := fun x hx => hwf x (List.mem_cons_of_mem t hx)
    have htail := (ih f (by
      simp only [List.length_cons] at hf
      omega) hwf2).1
    have hsuf : displayTail ts = [] ∨ ∃ s2, displayTail ts = ',' :: s2 := by
      cases ts with
      | nil => exact Or.inl rfl
      | cons a b => exact Or.inr ⟨_, rfl⟩
    have hpair := parseOnePair_display t (displayTail ts) hwf_t hsuf
    constructor
    · show parsePairs (f + 1) (',' :: (displayPair t ++ displayTail ts)) false = .ok (t :: ts)
      rw [parsePairs.eq_def]
      simp only [List.isEmpty_cons, Bool.false_eq_true, if_false,
        expectTok_delim ',' (by decide) (displayPair t ++ displayTail ts),
        except_bind_ok, hpair, htail]
    · show parsePairs (f + 1) (displayPair t ++ displayTail ts) true = .ok (t :: ts)
      rw [parsePairs.eq_def]
      have hnem : (displayPair t ++ displayTail ts).isEmpty = false := by
        rcases hne : displayPair t with _ | ⟨c, cs⟩
        · exact absurd hne (displayPair_ne_nil t)
        · rfl
      simp only [hnem, Bool.false_eq_true, if_false, if_true, except_pure_bind,
        except_bind_ok, hpair, htail]

theorem length_le_displayTail : ∀ ts : List (List Char × Nat × Nat),
    ts.length ≤ (displayTail ts).length := by
  intro ts
  induction ts with
  | nil => simp [displayTail]
  | cons t ts ih =>
    show ts.length + 1 ≤ (',' :: (displayPair t ++ displayTail ts)).length
    simp only [List.length_cons, List.length_append]
    omega

theorem length_le_displayPairs : ∀ ts : List (List Char × Nat × Nat),
    ts.length ≤ (displayPairs ts).length := by
  intro ts
  cases ts with
  | nil => simp [displayPairs]
  | cons t ts =>
    show ts.length + 1 ≤ (displayPair t ++ displayTail ts).length
    have h1 := length_le_displayTail ts
    have h2 : (displayPair t).length ≠ 0 := by
      intro h
      exact displayPair_ne_nil t (List.length_eq_zero.mp h)
    simp only [List.length_append]
    omega

theorem zip3_recover :
    ∀ (ls : List (List Char)) (ss ts : List Nat), ls.length = ss.length →
      ls.length = ts.length →
      (ls.zip (ss.zip ts)).map (fun x => x.1) = ls ∧
        (ls.zip (ss.zip ts)).map (fun x => x.2.1) = ss ∧
        (ls.zip (ss.zip ts)).map (fun x => x.2.2) = ts := by
  intro ls
  induction ls with
  | nil =>
    intro ss ts h1 h2
    have hss : ss = [] := List.length_eq_zero.mp h1.symm
    have hts : ts = [] := List.length_eq_zero.mp h2.symm
    subst hss
    subst hts
    simp
  | cons l ls ih =>
    intro ss ts h1 h2
    cases ss with
    | nil => simp at h1
    | cons s ss =>
      cases ts with
      | nil => simp at h2
      | cons t ts =>
        simp only [List.zip_cons_cons, List.map_cons]
        have := ih ss ts (by simpa using h1) (by simpa using h2)
        exact ⟨by rw [this.1], by rw [this.2.1], by rw [this.2.2]⟩

/-- C3 (amended). The claimed unconditional round trip
`region.to_string().parse::<Region>() == region` fails (see the
counterexample above), but it holds for every well-formed region: equal
label/size/stride list lengths, no empty label, and — when the offset
is zero — a first label that is not made solely of ASCII digits (such a
label is consumed by `from_str`'s optional-offset heuristic, whose
`expect("+")` then fails). -/
theorem region_display_roundtrip (r : Region)
    (hlen1 : r.labels.length = r.slice.sizes.length)
    (hlen2 : r.labels.length = r.slice.strides.length)
    (hne : ∀ l ∈ r.labels, l ≠ [])
    (hfirst : r.slice.offset = 0 →
      ∀ l0, r.labels.head? = some l0 → l0.all Char.isDigit = false) :
    regionFromChars (Region.display r) = .ok r := by
  obtain ⟨labels, slice⟩ := r
  obtain ⟨offset, sizes, strides⟩ := slice
  simp only at hlen1 hlen2 hne hfirst ⊢
  have hz := zip3_recover labels sizes strides hlen1 hlen2
  have hwf : ∀ p ∈ labels.zip (sizes.zip strides), p.1 ≠ [] := by
    intro p hp
    obtain ⟨a, b⟩ := p
    exact hne a (List.of_mem_zip hp).1
  have hmk : mkRegion offset (labels.zip (sizes.zip strides)) =
      ⟨labels, ⟨offset, sizes, strides⟩⟩ := by
    unfold mkRegion
    rw [hz.1, hz.2.1, hz.2.2]
  by_cases hoff : offset = 0
  · subst hoff
    have hdisp : Region.display ⟨labels, ⟨0, sizes, strides⟩⟩ =
        displayPairs (labels.zip (sizes.zip strides)) := by
      unfold Region.display
      rw [if_neg (by simp)]
      simp
    rw [hdisp]
    have htp : tryParseNat (displayPairs (labels.zip (sizes.zip strides))) = none := by
      cases hl : labels with
      | nil =>
        subst hl
        simp only [List.zip_nil_left]
        rfl
      | cons l0 ls =>
        subst hl
        cases sizes with
        | nil => simp at hlen1
        | cons s0 ss =>
          cases strides with
          | nil => simp at hlen2
          | cons t0 tts =>
            have hl0dig : l0.all Char.isDigit = false :=
              hfirst rfl l0 (by simp)
            have hl0ne : l0 ≠ [] := hne l0 (List.mem_cons_self l0 ls)
            show tryParseNat (displayPair (l0, s0, t0) ++
              displayTail (ls.zip (ss.zip tts))) = none
            by_cases hsafe : isSafeIdent l0 = true
            · have hfl : fmtLabel l0 = l0 := by
                unfold fmtLabel
                rw [if_pos hsafe]
              have hsh : displayPair (l0, s0, t0) ++ displayTail (ls.zip (ss.zip tts)) =
                  l0 ++ '=' :: (natChars s0 ++ '/' ::
                    (natChars t0 ++ displayTail (ls.zip (ss.zip tts)))) := by
                simp [displayPair, hfl, List.append_assoc]
              rw [hsh]
              exact tryParseNat_run_not_digits l0 hl0ne
                (fun c hc => safe_not_delim (by
                  simpa using List.all_eq_true.mp hsafe c hc))
                hl0dig '=' (by decide) _
            · have hfl : fmtLabel l0 = '"' :: (l0.flatMap escapeChar ++ ['"']) := by
                unfold fmtLabel quoteLabel
                rw [if_neg hsafe]
              have hsh : displayPair (l0, s0, t0) ++ displayTail (ls.zip (ss.zip tts)) =
                  '"' :: ((l0.flatMap escapeChar ++ ['"']) ++ '=' ::
                    (natChars s0 ++ '/' ::
                      (natChars t0 ++ displayTail (ls.zip (ss.zip tts))))) := by
                simp [displayPair, hfl, List.append_assoc]
              rw [hsh]
              exact tryParseNat_quote _
    unfold regionFromChars
    rw [htp]
    have hpp := (parsePairs_ok (labels.zip (sizes.zip strides))
      ((displayPairs (labels.zip (sizes.zip strides))).length + 1)
      (by have := length_le_displayPairs (labels.zip (sizes.zip strides)); omega)
      hwf).2
    rw [hpp]
    show Except.ok (mkRegion 0 (labels.zip (sizes.zip strides))) = _
    rw [hmk]
  · have hdisp : Region.display ⟨labels, ⟨offset, sizes, strides⟩⟩ =
        natChars offset ++ '+' :: displayPairs (labels.zip (sizes.zip strides)) := by
      unfold Region.display
      rw [if_pos (by simpa using hoff)]
      simp
    rw [hdisp]
    have hp := natChars_props offset
    have htp : tryParseNat (natChars offset ++ '+' ::
        displayPairs (labels.zip (sizes.zip strides))) =
        some (offset, '+' :: displayPairs (labels.zip (sizes.zip strides))) := by
      have := tryParseNat_digits (natChars offset) hp.1 hp.2.1 '+' (by decide)
        (displayPairs (labels.zip (sizes.zip strides)))
      rwa [hp.2.2] at this
    have hexp : expectTokE '+'
        ('+' :: displayPairs (labels.zip (sizes.zip strides))) =
        .ok (displayPairs (labels.zip (sizes.zip strides))) :=
      expectTok_delim '+' (by decide) _
    have hpp := (parsePairs_ok (labels.zip (sizes.zip strides))
      ((natChars offset ++ '+' ::
        displayPairs (labels.zip (sizes.zip strides))).length + 1)
      (by
        have h1 := length_le_displayPairs (labels.zip (sizes.zip strides))
        simp only [List.length_append, List.length_cons]
        omega)
      hwf).2
    unfold regionFromChars
    rw [htp]
    simp only [hexp, hpp]
    show Except.ok (mkRegion offset (labels.zip (sizes.zip strides))) = _
    rw [hmk]

theorem region_display_roundtrip_witness :
    regionFromChars (Region.display
      ⟨[['d', 'i', 'm', '/', '0'], ['d', 'i', 'm', ',', '1']], ⟨8, [4, 5], [1, 4]⟩⟩) =
      .ok ⟨[['d', 'i', 'm', '/', '0'], ['d', 'i', 'm', ',', '1']], ⟨8, [4, 5], [1, 4]⟩⟩ :=
  region_display_roundtrip
    ⟨[['d', 'i', 'm', '/', '0'], ['d', 'i', 'm', ',', '1']], ⟨8, [4, 5], [1, 4]⟩⟩
    (by decide) (by decide) (by decide) (fun h => absurd h (by decide))
